import Mathlib

/-!
# AI-Chat: conversation persistence service and chat UI

A shallow embedding of `src/server/server.js` (the two Express handlers and
`ensureConversationsDir`) and of `src/Frontend/index.js` (`addMessage`,
`sendMessage`, the keydown listener).

The handlers are written over an abstract file-system interface `FsApi` and an
abstract JSON codec `JsonApi`, which stand for the Node libraries `fs.promises`
and `JSON`.  Two instances are provided: `treeFs`, a POSIX-style directory tree
(no permissions, no quotas, no symbolic links), and `jsJSON`, a printer and
reader for JSON text.  Paths follow the POSIX flavour of `path.join`.
-/

namespace AIChat

/-! ## JSON values and JavaScript coercions -/

/-- A value as produced by `JSON.parse`.  A number is represented by the text
JavaScript prints for it (`1`, `-0.5`, `1e+21`): that text determines the
number up to the sign of zero, which neither a template literal nor
`JSON.stringify` shows.  A string is a list of characters (no unpaired
surrogates).  An object is the list of its own properties in enumeration
order. -/
inductive Json where
  | null
  | bool (b : Bool)
  | num (text : String)
  | str (s : String)
  | arr (items : List Json)
  | obj (members : List (String × Json))

/-- Error codes of the file-system calls. -/
inductive Errno where
  | ENOENT
  | ENOTDIR
  | EISDIR
  | EEXIST
  | EACCES
  | EINVAL
  | ENAMETOOLONG
  | ETIMEDOUT
  deriving DecidableEq, Repr

/-- What can be thrown inside a handler's `try` block. -/
inductive JsError where
  | fsError (code : Errno)
  | syntaxError
  | typeError
  deriving DecidableEq, Repr

/-- Own-property lookup in an object's member list. -/
def lookupMember (key : String) : List (String × Json) → Option Json
  | [] => none
  | (k, v) :: rest => if k = key then some v else lookupMember key rest

/-- The expression `conversation.id`: `none` is `undefined`.  Reading a property
of `null` throws a `TypeError`; arrays and primitives have no `id`. -/
def getId : Json → Except JsError (Option Json)
  | .null => .error .typeError
  | .obj members => .ok (lookupMember "id" members)
  | _ => .ok none

/-- Whether a value is `null`. -/
def Json.isNull : Json → Bool
  | .null => true
  | _ => false

mutual
/-- JavaScript `ToString` on a JSON-derived value.  An object whose own members
shadow `toString` cannot be converted (none of its members is callable). -/
def toStringJs : Json → Except JsError String
  | .null => .ok "null"
  | .bool b => .ok (if b then "true" else "false")
  | .num text => .ok text
  | .str s => .ok s
  | .arr items => joinJs items
  | .obj members =>
    if members.any (fun m => m.1 = "toString") then .error .typeError
    else .ok "[object Object]"
/-- The method `Array.prototype.join` with the default separator: `null`
elements give the empty string. -/
def joinJs : List Json → Except JsError String
  | [] => .ok ""
  | x :: xs =>
    match (if x.isNull then .ok "" else toStringJs x) with
    | .error e => .error e
    | .ok a =>
      match xs with
      | [] => .ok a
      | _ :: _ =>
        match joinJs xs with
        | .error e => .error e
        | .ok b => .ok (a ++ "," ++ b)
end

/-- The template literal `${conversation.id}.json`. -/
def fileNameOf : Option Json → Except JsError String
  | none => .ok ("undefined" ++ ".json")
  | some v => (toStringJs v).map (fun s => s ++ ".json")

/-! ## Paths -/

/-- An absolute, normalised path: its components below the root. -/
abbrev Path := List String

/-- Split a character list at every `/`. -/
def splitOnSlash : List Char → List (List Char)
  | [] => [[]]
  | c :: cs =>
    if c = '/' then [] :: splitOnSlash cs
    else
      match splitOnSlash cs with
      | [] => [[c]]
      | seg :: segs => (c :: seg) :: segs

/-- The components of a relative path string. -/
def segments (rel : String) : List String :=
  (splitOnSlash rel.data).map String.mk

/-- One step of normalisation: empty and `.` components vanish, `..` removes the
last component (and stays at the root). -/
def joinStep (acc : Path) (seg : String) : Path :=
  if seg = "" ∨ seg = "." then acc
  else if seg = ".." then acc.dropLast
  else acc ++ [seg]

/-- The function `path.join(base, rel)` for an absolute normalised `base`. -/
def pathJoin (base : Path) (rel : String) : Path :=
  (segments rel).foldl joinStep base

/-- The constant `CONVERSATIONS_DIR = path.join(__dirname, 'conversations')`. -/
def CONVERSATIONS_DIR (dirname : Path) : Path :=
  pathJoin dirname "conversations"

/-! ## Library interfaces -/

/-- The calls of `fs.promises` the server uses, over a state `σ`.  `mkdir` is
the call with `recursive: true`; `readFile` decodes as utf-8. -/
structure FsApi (σ : Type) where
  mkdir : Path → σ → Except Errno Unit × σ
  readdir : Path → σ → Except Errno (List String)
  readFile : Path → σ → Except Errno String
  writeFile : Path → String → σ → Except Errno Unit × σ

/-- The functions `JSON.parse(text)` and `JSON.stringify(value, null, indent)`. -/
structure JsonApi where
  parse : String → Except JsError Json
  stringify : Json → Nat → String

/-! ## The server -/

/-- HTTP response: status code and JSON body. -/
structure Response where
  status : Nat
  body : Json

/-- One `console.error(label, error)` line. -/
structure LogEntry where
  label : String
  error : JsError
  deriving DecidableEq, Repr

/-- Result of handling one request. -/
structure Outcome (σ : Type) where
  state : σ
  response : Response
  console : List LogEntry

/-- Body of the 500 answer of `/list-conversations`. -/
def listFailure : Response :=
  ⟨500, .obj [("error", .str "Failed to list conversations")]⟩

/-- Body of the 500 answer of `/save-conversation`. -/
def saveFailure : Response :=
  ⟨500, .obj [("error", .str "Failed to save conversation")]⟩

/-- Body of the 200 answer of `/save-conversation`. -/
def saveSuccess : Response :=
  ⟨200, .obj [("success", .bool true)]⟩

/-- The call `Promise.all` on already started tasks: all results in order, or a
rejection.  (When several tasks reject, the one reported here is the first in
index order; only the log line depends on the choice.) -/
def promiseAll {α : Type} : List (Except JsError α) → Except JsError (List α)
  | [] => .ok []
  | .error e :: _ => .error e
  | .ok v :: rs =>
    match promiseAll rs with
    | .error e => .error e
    | .ok vs => .ok (v :: vs)

/-- The function `ensureConversationsDir`: a failing `mkdir` is logged and
swallowed. -/
def ensureConversationsDir {σ : Type} (fs : FsApi σ) (dirname : Path) (s : σ) :
    σ × List LogEntry :=
  match fs.mkdir (CONVERSATIONS_DIR dirname) s with
  | (.ok _, s1) => (s1, [])
  | (.error e, s1) => (s1, [⟨"Error creating conversations directory:", .fsError e⟩])

/-- The task started for one directory entry by `files.map(async (file) => ...)`. -/
def readConversation {σ : Type} (fs : FsApi σ) (json : JsonApi) (dirname : Path) (s : σ)
    (file : String) : Except JsError Json :=
  match fs.readFile (pathJoin (CONVERSATIONS_DIR dirname) file) s with
  | .error e => .error (.fsError e)
  | .ok content => json.parse content

/-- The `try` block of the list handler after `ensureConversationsDir`. -/
def readAll {σ : Type} (fs : FsApi σ) (json : JsonApi) (dirname : Path) (s : σ) :
    Except JsError (List Json) :=
  match fs.readdir (CONVERSATIONS_DIR dirname) s with
  | .error e => .error (.fsError e)
  | .ok files => promiseAll (files.map (readConversation fs json dirname s))

/-- The handler of `GET /list-conversations`. -/
def listConversations {σ : Type} (fs : FsApi σ) (json : JsonApi) (dirname : Path) (s : σ) :
    Outcome σ :=
  match ensureConversationsDir fs dirname s with
  | (s1, logged) =>
    match readAll fs json dirname s1 with
    | .ok conversations => ⟨s1, ⟨200, .arr conversations⟩, logged⟩
    | .error e => ⟨s1, listFailure, logged ++ [⟨"Error listing conversations:", e⟩]⟩

/-- The argument `path.join(CONVERSATIONS_DIR, ...)` of `writeFile` in the
save handler. -/
def savePath (dirname : Path) (conversation : Json) : Except JsError Path :=
  match getId conversation with
  | .error e => .error e
  | .ok id =>
    match fileNameOf id with
    | .error e => .error e
    | .ok name => .ok (pathJoin (CONVERSATIONS_DIR dirname) name)

/-- The handler of `POST /save-conversation`; `body` is `req.body`. -/
def saveConversation {σ : Type} (fs : FsApi σ) (json : JsonApi) (dirname : Path)
    (body : Json) (s : σ) : Outcome σ :=
  match ensureConversationsDir fs dirname s with
  | (s1, logged) =>
    match savePath dirname body with
    | .error e => ⟨s1, saveFailure, logged ++ [⟨"Error saving conversation:", e⟩]⟩
    | .ok file =>
      match fs.writeFile file (json.stringify body 2) s1 with
      | (.ok _, s2) => ⟨s2, saveSuccess, logged⟩
      | (.error e, s2) =>
        ⟨s2, saveFailure, logged ++ [⟨"Error saving conversation:", .fsError e⟩]⟩

/-! ## A directory tree as file system -/

/-- A file-system node: a regular file with its text, or a directory with its
entries in the order `readdir` yields them. -/
inductive Node where
  | file (content : String)
  | dir (entries : List (String × Node))

/-- The entry of a directory with the given name. -/
def findEntry (name : String) : List (String × Node) → Option Node
  | [] => none
  | (k, v) :: rest => if k = name then some v else findEntry name rest

/-- Replace the entry with the given name in place, or add it at the end. -/
def putEntry (name : String) (node : Node) : List (String × Node) → List (String × Node)
  | [] => [(name, node)]
  | (k, v) :: rest =>
    if k = name then (k, node) :: rest else (k, v) :: putEntry name node rest

/-- Longest file name, in bytes, the file system accepts. -/
def NAME_MAX : Nat := 255

/-- A name that can be given to a new entry: no NUL character, at most
`NAME_MAX` bytes. -/
def nameOk (name : String) : Bool :=
  !(name.data.contains (Char.ofNat 0)) && decide (name.utf8ByteSize ≤ NAME_MAX)

/-- The error for a name that is not `nameOk`. -/
def nameErrno (name : String) : Errno :=
  if name.data.contains (Char.ofNat 0) then .EINVAL else .ENAMETOOLONG

/-- Follow a path from a node. -/
def Node.resolve : Node → Path → Except Errno Node
  | n, [] => .ok n
  | .file _, _ :: _ => .error .ENOTDIR
  | .dir es, s :: rest =>
    match findEntry s es with
    | none => .error .ENOENT
    | some c => c.resolve rest

/-- The text of the regular file at a path, if there is one. -/
def Node.fileAt (root : Node) (p : Path) : Option String :=
  match root.resolve p with
  | .ok (.file content) => some content
  | _ => none

/-- Recursive directory creation below a slot that holds a node or is empty. -/
def mkdirAt : Option Node → Path → Except Errno Node
  | none, [] => .ok (.dir [])
  | some (.dir es), [] => .ok (.dir es)
  | some (.file _), [] => .error .EEXIST
  | some (.file _), _ :: _ => .error .ENOTDIR
  | none, s :: rest =>
    if nameOk s then (mkdirAt none rest).map (fun c => .dir [(s, c)])
    else .error (nameErrno s)
  | some (.dir es), s :: rest =>
    if (findEntry s es).isNone && !nameOk s then .error (nameErrno s)
    else (mkdirAt (findEntry s es) rest).map (fun c => .dir (putEntry s c es))

/-- Create or truncate the file at a path below a slot and write the text. -/
def writeAt : Option Node → Path → String → Except Errno Node
  | none, [], data => .ok (.file data)
  | some (.file _), [], data => .ok (.file data)
  | some (.dir _), [], _ => .error .EISDIR
  | none, _ :: _, _ => .error .ENOENT
  | some (.file _), _ :: _, _ => .error .ENOTDIR
  | some (.dir es), s :: rest, data =>
    if (findEntry s es).isNone && !nameOk s then .error (nameErrno s)
    else (writeAt (findEntry s es) rest data).map (fun c => .dir (putEntry s c es))

/-- The file-system calls on a directory tree; the state is the root node.  A
failed call leaves the tree as it was. -/
def treeFs : FsApi Node where
  mkdir p root :=
    match mkdirAt (some root) p with
    | .ok r => (.ok (), r)
    | .error e => (.error e, root)
  readdir p root :=
    match root.resolve p with
    | .ok (.dir es) => .ok (es.map Prod.fst)
    | .ok (.file _) => .error .ENOTDIR
    | .error e => .error e
  readFile p root :=
    match root.resolve p with
    | .ok (.file content) => .ok content
    | .ok (.dir _) => .error .EISDIR
    | .error e => .error e
  writeFile p data root :=
    match writeAt (some root) p data with
    | .ok r => (.ok (), r)
    | .error e => (.error e, root)

/-- The tree file system with a `mkdir` that times out
whatever the tree holds, while the other calls work (a transient fault, as a
network file system can show). -/
def faultyMkdirFs : FsApi Node :=
  { treeFs with mkdir := fun _ root => (.error .ETIMEDOUT, root) }

/-- The text of the regular file at a path below a slot. -/
def slotFileAt : Option Node → Path → Option String
  | none, _ => none
  | some n, p => n.fileAt p

/-- A name that `path.join` leaves alone: no `/`, and not empty, `.` or `..`. -/
def plainName (name : String) : Bool :=
  !(name.data.contains '/') && decide (name ≠ "") && decide (name ≠ ".")
    && decide (name ≠ "..")

/-- A well-formed directory listing: no name occurs twice and every name is
plain. -/
def WfDir (es : List (String × Node)) : Prop :=
  (es.map Prod.fst).Nodup ∧ ∀ e ∈ es, plainName e.1 = true

/-- The entries of `conversations` as seen from the entries of `__dirname`:
none yet when the directory is absent, and no answer when the name is taken by
a regular file. -/
def convEntries (es0 : List (String × Node)) : Option (List (String × Node)) :=
  match findEntry "conversations" es0 with
  | none => some []
  | some (.dir es) => some es
  | some (.file _) => none

/-- An entry is a regular file whose text parses to the value. -/
def StoredAs (json : JsonApi) (e : String × Node) (v : Json) : Prop :=
  ∃ content, e.2 = .file content ∧ json.parse content = .ok v

/-! ## A JSON codec -/

/-- The hexadecimal digit of a number below sixteen, in lower case. -/
def hexDigit (n : Nat) : Char :=
  if n < 10 then Char.ofNat (48 + n) else Char.ofNat (87 + n)

/-- The text `JSON.stringify` writes for one character inside a string. -/
def quoteChar (c : Char) : List Char :=
  if c = '"' then ['\\', '"']
  else if c = '\\' then ['\\', '\\']
  else if c = Char.ofNat 8 then ['\\', 'b']
  else if c = Char.ofNat 12 then ['\\', 'f']
  else if c = Char.ofNat 10 then ['\\', 'n']
  else if c = Char.ofNat 13 then ['\\', 'r']
  else if c = Char.ofNat 9 then ['\\', 't']
  else if c.toNat < 32 then
    ['\\', 'u', '0', '0', hexDigit (c.toNat / 16), hexDigit (c.toNat % 16)]
  else [c]

/-- A quoted JSON string. -/
def quoteJs (s : String) : List Char :=
  '"' :: (s.data.flatMap quoteChar ++ ['"'])

/-- Line break followed by the indentation of a nesting depth, or nothing when
the gap is empty. -/
def lineBreak (gap : Nat) (depth : Nat) : List Char :=
  if gap = 0 then [] else Char.ofNat 10 :: List.replicate (gap * depth) ' '

/-- The separator between a member name and its value. -/
def colon (gap : Nat) : List Char :=
  if gap = 0 then [':'] else [':', ' ']

mutual
/-- The text of a value at a nesting depth, for a gap of `gap` spaces. -/
def render (gap : Nat) (depth : Nat) : Json → List Char
  | .null => ['n', 'u', 'l', 'l']
  | .bool true => ['t', 'r', 'u', 'e']
  | .bool false => ['f', 'a', 'l', 's', 'e']
  | .num text => text.data
  | .str s => quoteJs s
  | .arr [] => ['[', ']']
  | .arr (x :: xs) =>
    '[' :: (lineBreak gap (depth + 1) ++ (render gap (depth + 1) x
      ++ (renderItems gap (depth + 1) xs ++ (lineBreak gap depth ++ [']']))))
  | .obj [] => ['\x7b', '\x7d']
  | .obj ((k, v) :: ms) =>
    '\x7b' :: (lineBreak gap (depth + 1) ++ (quoteJs k ++ (colon gap
      ++ (render gap (depth + 1) v ++ (renderMembers gap (depth + 1) ms
      ++ (lineBreak gap depth ++ ['\x7d']))))))
/-- The remaining elements of an array, each after a comma. -/
def renderItems (gap : Nat) (depth : Nat) : List Json → List Char
  | [] => []
  | x :: xs =>
    ',' :: (lineBreak gap depth ++ (render gap depth x ++ renderItems gap depth xs))
/-- The remaining members of an object, each after a comma. -/
def renderMembers (gap : Nat) (depth : Nat) : List (String × Json) → List Char
  | [] => []
  | (k, v) :: ms =>
    ',' :: (lineBreak gap depth ++ (quoteJs k ++ (colon gap
      ++ (render gap depth v ++ renderMembers gap depth ms))))
end

/-- The call `JSON.stringify(value, null, indent)`: the gap is at most ten
spaces. -/
def stringifyJs (value : Json) (indent : Nat) : String :=
  String.mk (render (min indent 10) 0 value)

/-- JSON white space. -/
def isJsonWs (c : Char) : Bool :=
  c = ' ' || c = Char.ofNat 9 || c = Char.ofNat 10 || c = Char.ofNat 13

/-- Drop leading JSON white space. -/
def skipWs : List Char → List Char
  | [] => []
  | c :: cs => if isJsonWs c then skipWs cs else c :: cs

/-- Where the reader of a number literal stands: at the start, after the sign,
after a leading zero, in the integer digits, after the point, in the fraction
digits, after the exponent mark, after the exponent sign, in the exponent
digits. -/
inductive NumState where
  | start
  | minus
  | zero
  | int
  | dot
  | frac
  | mark
  | sign
  | expo
  deriving DecidableEq, Repr

/-- The states in which a number literal is complete. -/
def NumState.accepting : NumState → Bool
  | .zero => true
  | .int => true
  | .frac => true
  | .expo => true
  | _ => false

/-- One character of a number literal, by the JSON grammar. -/
def numStep : NumState → Char → Option NumState
  | .start, c =>
    if c = '-' then some .minus else if c = '0' then some .zero
    else if c.isDigit then some .int else none
  | .minus, c =>
    if c = '0' then some .zero else if c.isDigit then some .int else none
  | .zero, c =>
    if c = '.' then some .dot else if c = 'e' ∨ c = 'E' then some .mark else none
  | .int, c =>
    if c.isDigit then some .int else if c = '.' then some .dot
    else if c = 'e' ∨ c = 'E' then some .mark else none
  | .dot, c => if c.isDigit then some .frac else none
  | .frac, c =>
    if c.isDigit then some .frac else if c = 'e' ∨ c = 'E' then some .mark else none
  | .mark, c =>
    if c = '+' ∨ c = '-' then some .sign else if c.isDigit then some .expo else none
  | .sign, c => if c.isDigit then some .expo else none
  | .expo, c => if c.isDigit then some .expo else none

/-- Read the longest run of characters that continues a number literal: the
characters read, the state reached and the rest. -/
def scanNumber : NumState → List Char → List Char × NumState × List Char
  | st, [] => ([], st, [])
  | st, c :: cs =>
    match numStep st c with
    | none => ([], st, c :: cs)
    | some next =>
      match scanNumber next cs with
      | (lit, final, rest) => (c :: lit, final, rest)

/-- Read a number literal. -/
def readNumber (cs : List Char) : Option (List Char × List Char) :=
  match scanNumber .start cs with
  | (lit, final, rest) => if final.accepting then some (lit, rest) else none

/-- A text that is one whole JSON number literal, as every text is that
JavaScript prints for a finite number. -/
def isNumberText (text : String) : Bool :=
  match scanNumber .start text.data with
  | (_, final, rest) => final.accepting && rest.isEmpty

/-- The value of a hexadecimal digit. -/
def hexVal (c : Char) : Option Nat :=
  if '0' ≤ c ∧ c ≤ '9' then some (c.toNat - 48)
  else if 'a' ≤ c ∧ c ≤ 'f' then some (c.toNat - 87)
  else if 'A' ≤ c ∧ c ≤ 'F' then some (c.toNat - 55)
  else none

/-- The code unit written by four hexadecimal digits. -/
def hex4 (a b c d : Char) : Option Nat :=
  match hexVal a, hexVal b, hexVal c, hexVal d with
  | some w, some x, some y, some z => some (((w * 16 + x) * 16 + y) * 16 + z)
  | _, _, _, _ => none

/-- The character of a one-letter escape. -/
def unescape (e : Char) : Option Char :=
  if e = '"' then some '"'
  else if e = '\\' then some '\\'
  else if e = '/' then some '/'
  else if e = 'b' then some (Char.ofNat 8)
  else if e = 'f' then some (Char.ofNat 12)
  else if e = 'n' then some (Char.ofNat 10)
  else if e = 'r' then some (Char.ofNat 13)
  else if e = 't' then some (Char.ofNat 9)
  else none

/-- A piece of a string literal: a character, or the code unit of a `\u`
escape. -/
inductive StrItem where
  | plain (c : Char)
  | unit (n : Nat)
  deriving DecidableEq, Repr

/-- Read the pieces of a string literal after its opening quote, up to the
closing quote. -/
def readStrItems : List Char → Option (List StrItem × List Char)
  | [] => none
  | c :: rest =>
    if c = '"' then some ([], rest)
    else if c = '\\' then
      match rest with
      | [] => none
      | e :: rest1 =>
        if e = 'u' then
          match rest1 with
          | a :: b :: c2 :: d :: rest2 =>
            match hex4 a b c2 d, readStrItems rest2 with
            | some n, some (items, r) => some (.unit n :: items, r)
            | _, _ => none
          | _ => none
        else
          match unescape e, readStrItems rest1 with
          | some ch, some (items, r) => some (.plain ch :: items, r)
          | _, _ => none
    else if c.toNat < 32 then none
    else
      match readStrItems rest with
      | some (items, r) => some (.plain c :: items, r)
      | none => none

/-- Whether a code unit is a leading surrogate. -/
def isHighSurrogate (n : Nat) : Bool := 55296 ≤ n && n < 56320

/-- Whether a code unit is a trailing surrogate. -/
def isLowSurrogate (n : Nat) : Bool := 56320 ≤ n && n < 57344

/-- The characters of the pieces, with the leading surrogate that is waiting
for its partner, if any: an escaped surrogate pair is one character, an escaped
surrogate on its own is shown as U+FFFD (a string here holds characters, not
code units). -/
def decodeFrom : Option Nat → List StrItem → List Char
  | none, [] => []
  | some _, [] => [Char.ofNat 65533]
  | none, .plain c :: rest => c :: decodeFrom none rest
  | some _, .plain c :: rest => Char.ofNat 65533 :: c :: decodeFrom none rest
  | none, .unit n :: rest =>
    if isHighSurrogate n then decodeFrom (some n) rest
    else if isLowSurrogate n then Char.ofNat 65533 :: decodeFrom none rest
    else Char.ofNat n :: decodeFrom none rest
  | some high, .unit n :: rest =>
    if isLowSurrogate n then
      Char.ofNat (65536 + (high - 55296) * 1024 + (n - 56320)) :: decodeFrom none rest
    else if isHighSurrogate n then Char.ofNat 65533 :: decodeFrom (some n) rest
    else Char.ofNat 65533 :: Char.ofNat n :: decodeFrom none rest

/-- The characters of the pieces of a string literal. -/
def decodeItems (items : List StrItem) : List Char :=
  decodeFrom none items

/-- Read the rest of a string literal after its opening quote. -/
def readString (cs : List Char) : Option (List Char × List Char) :=
  match readStrItems cs with
  | some (items, rest) => some (decodeItems items, rest)
  | none => none

/-- Set a member of an object under construction: a repeated name keeps its
place and takes the later value. -/
def putMember (key : String) (value : Json) : List (String × Json) → List (String × Json)
  | [] => [(key, value)]
  | (k, v) :: rest =>
    if k = key then (k, value) :: rest else (k, v) :: putMember key value rest

mutual
/-- Read one value; the fuel bounds the nesting and the number of elements. -/
def readValue : Nat → List Char → Option (Json × List Char)
  | 0, _ => none
  | fuel + 1, cs =>
    match skipWs cs with
    | [] => none
    | c :: rest =>
      if c = '"' then
        match readString rest with
        | some (s, r) => some (.str (String.mk s), r)
        | none => none
      else if c = '[' then
        match skipWs rest with
        | [] => none
        | c2 :: r =>
          if c2 = ']' then some (.arr [], r)
          else
            match readItems fuel rest with
            | some (items, r3) => some (.arr items, r3)
            | none => none
      else if c = '\x7b' then
        match skipWs rest with
        | [] => none
        | c2 :: r =>
          if c2 = '\x7d' then some (.obj [], r)
          else
            match readMembers fuel [] rest with
            | some (members, r3) => some (.obj members, r3)
            | none => none
      else if c = 'n' then
        match rest with
        | 'u' :: 'l' :: 'l' :: r => some (.null, r)
        | _ => none
      else if c = 't' then
        match rest with
        | 'r' :: 'u' :: 'e' :: r => some (.bool true, r)
        | _ => none
      else if c = 'f' then
        match rest with
        | 'a' :: 'l' :: 's' :: 'e' :: r => some (.bool false, r)
        | _ => none
      else
        match readNumber (c :: rest) with
        | some (lit, r) => some (.num (String.mk lit), r)
        | none => none
/-- Read the elements of a non-empty array up to the closing bracket. -/
def readItems : Nat → List Char → Option (List Json × List Char)
  | 0, _ => none
  | fuel + 1, cs =>
    match readValue fuel cs with
    | none => none
    | some (v, r) =>
      match skipWs r with
      | [] => none
      | c :: r2 =>
        if c = ',' then
          match readItems fuel r2 with
          | some (vs, r3) => some (v :: vs, r3)
          | none => none
        else if c = ']' then some ([v], r2)
        else none
/-- Read the members of a non-empty object up to the closing brace, onto the
members read so far. -/
def readMembers : Nat → List (String × Json) → List Char →
    Option (List (String × Json) × List Char)
  | 0, _, _ => none
  | fuel + 1, acc, cs =>
    match skipWs cs with
    | [] => none
    | q :: r0 =>
      if q = '"' then
        match readString r0 with
        | none => none
        | some (k, r1) =>
          match skipWs r1 with
          | [] => none
          | c :: r2 =>
            if c = ':' then
              match readValue fuel r2 with
              | none => none
              | some (v, r3) =>
                match skipWs r3 with
                | [] => none
                | d :: r4 =>
                  if d = ',' then readMembers fuel (putMember (String.mk k) v acc) r4
                  else if d = '\x7d' then some (putMember (String.mk k) v acc, r4)
                  else none
            else none
      else none
end

/-- The call `JSON.parse(text)`: one value by the JSON grammar, white space
around it, nothing else; anything else is a `SyntaxError`.  The value is shown
as the text gives it: members in the order of the text (JavaScript lists
index-like names first, which deep equality does not see), a number by its
literal (for a text that JavaScript printed, that is the number's own text). -/
def parseJs (text : String) : Except JsError Json :=
  match readValue (text.data.length + 1) text.data with
  | some (v, rest) =>
    match skipWs rest with
    | [] => .ok v
    | _ :: _ => .error .syntaxError
  | none => .error .syntaxError

/-- The codec `JSON` of the closed examples and of the round trip. -/
def jsJSON : JsonApi where
  parse := parseJs
  stringify := stringifyJs

mutual
/-- A value as `express.json()` can deliver it: every number is written as a
number literal, and no object has two members of the same name. -/
def Json.valid : Json → Bool
  | .num text => isNumberText text
  | .arr items => validItems items
  | .obj members => validMembers members && decide ((members.map Prod.fst).Nodup)
  | _ => true
/-- All elements are valid. -/
def validItems : List Json → Bool
  | [] => true
  | x :: xs => x.valid && validItems xs
/-- All member values are valid. -/
def validMembers : List (String × Json) → Bool
  | [] => true
  | (_, v) :: ms => v.valid && validMembers ms
end

mutual
/-- The fuel that reading a value back takes. -/
def Json.size : Json → Nat
  | .arr items => 1 + sizeItems items
  | .obj members => 1 + sizeMembers members
  | _ => 1
/-- The fuel for the elements of an array. -/
def sizeItems : List Json → Nat
  | [] => 0
  | x :: xs => 1 + x.size + sizeItems xs
/-- The fuel for the members of an object. -/
def sizeMembers : List (String × Json) → Nat
  | [] => 0
  | (_, v) :: ms => 1 + v.size + sizeMembers ms
end

/-- The piece a character of a string is read back as from its quoted text. -/
def quoteItem (c : Char) : StrItem :=
  if c = '"' then .plain c
  else if c = '\\' then .plain c
  else if c = Char.ofNat 8 then .plain c
  else if c = Char.ofNat 12 then .plain c
  else if c = Char.ofNat 10 then .plain c
  else if c = Char.ofNat 13 then .plain c
  else if c = Char.ofNat 9 then .plain c
  else if c.toNat < 32 then .unit c.toNat
  else .plain c

/-- A character that can follow a value inside a JSON text. -/
def isStop (c : Char) : Bool :=
  c = ',' || c = ']' || c = '\x7d' || isJsonWs c

/-- A text that starts with a character that can follow a value, or is
empty. -/
def Delimited : List Char → Prop
  | [] => True
  | c :: _ => isStop c = true

/-- The text of a valid value is read back as that value, whatever stop
follows it, with fuel for its size. -/
def ReadsBack (v : Json) : Prop :=
  v.valid = true → ∀ gap depth rest fuel, v.size ≤ fuel → Delimited rest →
    readValue fuel (render gap depth v ++ rest) = some (v, rest)

/-! ## The chat page -/

/-- White space and line terminators as `String.prototype.trim` removes them. -/
def isJsSpace (c : Char) : Bool :=
  let n := c.toNat
  n = 9 || n = 10 || n = 11 || n = 12 || n = 13 || n = 32 || n = 160 || n = 5760
    || (8192 ≤ n && n ≤ 8202) || n = 8232 || n = 8233 || n = 8239 || n = 8287
    || n = 12288 || n = 65279

/-- The method `String.prototype.trim`. -/
def jsTrim (s : String) : String :=
  String.mk ((s.data.dropWhile isJsSpace).reverse.dropWhile isJsSpace).reverse

/-- A message bubble: the `div` that `addMessage` appends to the message list,
with the class of its container and the markup assigned to `innerHTML`. -/
structure Bubble where
  className : String
  containerClass : String
  innerHTML : String
  deriving DecidableEq, Repr

/-- The markup of a bubble with a role label and a content. -/
def bubbleMarkup (label content : String) : String :=
  "\n                <div class=\"message-role\">" ++ label ++ "</div>"
    ++ "\n                <div class=\"message-content\">" ++ content ++ "</div>"
    ++ "\n            "

/-- A callback registered with `setTimeout` by `sendMessage`: its delay and the
message it captured. -/
structure Timer where
  delay : Nat
  message : String
  deriving DecidableEq, Repr

/-- The part of the page the script reads and writes: the input's value and
height, the children of the message list, whether the list is scrolled to its
end, and the pending timers. -/
structure Page where
  inputValue : String
  inputHeight : String
  bubbles : List Bubble
  scrolledToEnd : Bool
  timers : List Timer
  deriving DecidableEq, Repr

/-- The function `addMessage(content, role)`. -/
def addMessage (content role : String) (page : Page) : Page :=
  let messageDiv : Bubble :=
    { className := "message " ++ role ++ "-message"
      containerClass := "message-container"
      innerHTML := bubbleMarkup (if role = "user" then "You" else "Assistant") content }
  { page with bubbles := page.bubbles ++ [messageDiv], scrolledToEnd := true }

/-- The text of the simulated reply. -/
def aiResponse (message : String) : String :=
  "This is a simulated response to: \"" ++ message ++ "\""

/-- Running a timer's callback. -/
def Timer.fire (t : Timer) (page : Page) : Page :=
  addMessage (aiResponse t.message) "assistant" page

/-- The function `sendMessage`. -/
def sendMessage (page : Page) : Page :=
  let message := jsTrim page.inputValue
  if message ≠ "" then
    let shown := addMessage message "user" page
    let scheduled := { shown with timers := shown.timers ++ [Timer.mk 500 message] }
    { scheduled with inputValue := "", inputHeight := "24px" }
  else page

/-- A keydown event: the key and the state of Shift. -/
structure KeyEvent where
  key : String
  shiftKey : Bool
  deriving DecidableEq, Repr

/-- What a keydown listener did: whether it prevented the default action, and
the page it left. -/
structure KeydownEffect where
  defaultPrevented : Bool
  page : Page
  deriving DecidableEq, Repr

/-- The keydown listener of the message input. -/
def onKeydown (e : KeyEvent) (page : Page) : KeydownEffect :=
  if e.key = "Enter" ∧ ¬ e.shiftKey then ⟨true, sendMessage page⟩
  else ⟨false, page⟩

/-! ## Example data -/

/-- The directory of `server.js` in the examples. -/
def demoDirname : Path := ["srv", "app"]

/-- A tree in which `conversations` does not exist yet. -/
def freshRoot : Node :=
  .dir [("srv", .dir [("app", .dir [("server.js", .file "")])])]

/-- A tree in which `conversations` exists and is empty. -/
def emptyRoot : Node :=
  .dir [("srv", .dir [("app", .dir [("server.js", .file ""), ("conversations", .dir [])])])]

/-- The conversation of the spec's scenario. -/
def demoConversation : Json :=
  .obj [("id", .str "abc"),
    ("messages", .arr [.obj [("role", .str "user"), ("content", .str "hi")]])]

/-- A tree whose `conversations` holds two parseable files, the later name
first and one of them not named `.json`, and a third file that is not JSON. -/
def storedRoot (third : List (String × Node)) : Node :=
  .dir [("srv", .dir [("app", .dir [("server.js", .file ""),
    ("conversations", .dir ([("b.txt", .file "[1, 2]"), ("a.json", .file "\x7b\"id\": \"a\"\x7d")]
      ++ third))])])]

/-- A payload whose id climbs out of the conversations directory. -/
def traversalConversation : Json :=
  .obj [("id", .str "../x"), ("messages", .arr [])]

/-- A second payload with the same climbing id. -/
def traversalConversation2 : Json :=
  .obj [("id", .str "../x"),
    ("messages", .arr [.obj [("role", .str "user"), ("content", .str "again")]])]

/-- A payload with id `a`. -/
def conversationA : Json :=
  .obj [("id", .str "a"), ("messages", .arr [])]

/-- A payload with the different id `./a`. -/
def conversationDotA : Json :=
  .obj [("id", .str "./a"), ("messages", .arr [.obj [("role", .str "user"), ("content", .str "b")]])]

/-- A payload with id `b`. -/
def conversationB : Json :=
  .obj [("id", .str "b"), ("messages", .arr [.obj [("role", .str "user"), ("content", .str "b")]])]

/-- A later version of the spec's conversation, same id. -/
def demoConversation2 : Json :=
  .obj [("id", .str "abc"),
    ("messages", .arr [.obj [("role", .str "user"), ("content", .str "hi")],
      .obj [("role", .str "assistant"), ("content", .str "hello")]])]

/-- A tree in which the name `conversations` is taken by a regular file. -/
def blockedRoot : Node :=
  .dir [("srv", .dir [("app", .dir [("server.js", .file ""), ("conversations", .file "")])])]

/-! ## Collected results -/

theorem promiseAll_error_of_mem {α : Type} (rs : List (Except JsError α)) (e : JsError)
    (h : Except.error e ∈ rs) : ∃ e2, promiseAll rs = .error e2 := by
  induction rs with
  | nil => simp at h
  | cons r rs ih =>
    cases r with
    | error e3 => exact ⟨e3, by simp [promiseAll]⟩
    | ok v =>
      rcases List.mem_cons.mp h with h1 | h1
      · cases h1
      · obtain ⟨e2, he2⟩ := ih h1
        exact ⟨e2, by simp [promiseAll, he2]⟩

/-! ## Directory listings -/

theorem findEntry_putEntry_same (k : String) (v : Node) (es : List (String × Node)) :
    findEntry k (putEntry k v es) = some v := by
  induction es with
  | nil => simp [putEntry, findEntry]
  | cons e es ih =>
    obtain ⟨k2, v2⟩ := e
    by_cases h : k2 = k
    · simp [putEntry, findEntry, h]
    · simp [putEntry, findEntry, h, ih]

theorem findEntry_putEntry_other (k k2 : String) (v : Node) (es : List (String × Node))
    (h : k2 ≠ k) : findEntry k2 (putEntry k v es) = findEntry k2 es := by
  induction es with
  | nil => simp [putEntry, findEntry, Ne.symm h]
  | cons e es ih =>
    obtain ⟨k3, v3⟩ := e
    by_cases h3 : k3 = k
    · subst h3
      have : ¬ k3 = k2 := fun c => h c.symm
      simp [putEntry, findEntry, this]
    · by_cases h4 : k3 = k2
      · subst h4
        simp [putEntry, findEntry, h3]
      · simp [putEntry, findEntry, h3, h4, ih]

theorem putEntry_self (k : String) (v : Node) (es : List (String × Node))
    (h : findEntry k es = some v) : putEntry k v es = es := by
  induction es with
  | nil => simp [findEntry] at h
  | cons e es ih =>
    obtain ⟨k2, v2⟩ := e
    by_cases h2 : k2 = k
    · simp [findEntry, h2] at h
      simp [putEntry, h2, h]
    · simp [findEntry, h2] at h
      simp [putEntry, h2, ih h]

theorem findEntry_eq_none_iff (k : String) (es : List (String × Node)) :
    findEntry k es = none ↔ k ∉ es.map Prod.fst := by
  induction es with
  | nil => simp [findEntry]
  | cons e es ih =>
    obtain ⟨k2, v2⟩ := e
    by_cases h2 : k2 = k
    · simp [findEntry, h2]
    · have h3 : ¬ k = k2 := fun c => h2 c.symm
      simp [findEntry, h2, h3, ih]

theorem putEntry_of_none (k : String) (v : Node) (es : List (String × Node))
    (h : findEntry k es = none) : putEntry k v es = es ++ [(k, v)] := by
  induction es with
  | nil => rfl
  | cons e es ih =>
    obtain ⟨k2, v2⟩ := e
    by_cases h2 : k2 = k
    · simp [findEntry, h2] at h
    · simp [findEntry, h2] at h
      simp [putEntry, h2, ih h]

theorem keys_putEntry_of_some (k : String) (v c : Node) (es : List (String × Node))
    (h : findEntry k es = some c) : (putEntry k v es).map Prod.fst = es.map Prod.fst := by
  induction es with
  | nil => simp [findEntry] at h
  | cons e es ih =>
    obtain ⟨k2, v2⟩ := e
    by_cases h2 : k2 = k
    · simp [putEntry, h2]
    · simp [findEntry, h2] at h
      simp [putEntry, h2, ih h]

theorem findEntry_of_mem (k : String) (v : Node) (es : List (String × Node))
    (hn : (es.map Prod.fst).Nodup) (hm : (k, v) ∈ es) : findEntry k es = some v := by
  induction es with
  | nil => simp at hm
  | cons e es ih =>
    obtain ⟨k2, v2⟩ := e
    simp only [List.map_cons, List.nodup_cons] at hn
    rcases List.mem_cons.mp hm with h1 | h1
    · cases h1
      simp [findEntry]
    · have hk : k ∈ es.map Prod.fst := List.mem_map.mpr ⟨(k, v), h1, rfl⟩
      have h2 : ¬ k2 = k := fun c => hn.1 (c ▸ hk)
      simp [findEntry, h2, ih hn.2 h1]

theorem mem_putEntry (k : String) (v : Node) (es : List (String × Node)) (e : String × Node)
    (h : e ∈ putEntry k v es) : e = (k, v) ∨ e ∈ es := by
  induction es with
  | nil => simpa [putEntry] using h
  | cons e2 es ih =>
    obtain ⟨k2, v2⟩ := e2
    by_cases h2 : k2 = k
    · simp [putEntry, h2] at h
      rcases h with h | h
      · exact Or.inl h
      · exact Or.inr (List.mem_cons_of_mem _ h)
    · simp [putEntry, h2] at h
      rcases h with h | h
      · exact Or.inr (by simp [h])
      · rcases ih h with h3 | h3
        · exact Or.inl h3
        · exact Or.inr (List.mem_cons_of_mem _ h3)

theorem mem_putEntry_self (k : String) (v : Node) (es : List (String × Node)) :
    (k, v) ∈ putEntry k v es := by
  induction es with
  | nil => simp [putEntry]
  | cons e2 es ih =>
    obtain ⟨k2, v2⟩ := e2
    by_cases h2 : k2 = k
    · simp [putEntry, h2]
    · simp [putEntry, h2, ih]

theorem nodup_keys_putEntry (k : String) (v : Node) (es : List (String × Node))
    (hn : (es.map Prod.fst).Nodup) : ((putEntry k v es).map Prod.fst).Nodup := by
  cases h : findEntry k es with
  | none =>
    rw [putEntry_of_none k v es h]
    have hk := (findEntry_eq_none_iff k es).mp h
    simp only [List.map_append, List.map_cons, List.map_nil]
    exact List.Nodup.append hn (List.nodup_singleton k) (by simpa using hk)
  | some c =>
    rw [keys_putEntry_of_some k v c es h]
    exact hn

theorem wfDir_putEntry (k : String) (v : Node) (es : List (String × Node))
    (hk : plainName k = true) (hw : WfDir es) : WfDir (putEntry k v es) := by
  refine ⟨nodup_keys_putEntry k v es hw.1, ?_⟩
  intro e he
  rcases mem_putEntry k v es e he with h | h
  · rw [h]; exact hk
  · exact hw.2 e h

/-! ## Paths -/

theorem splitOnSlash_of_no_slash (cs : List Char) (h : '/' ∉ cs) : splitOnSlash cs = [cs] := by
  induction cs with
  | nil => rfl
  | cons c cs ih =>
    have hc : ¬ c = '/' := fun e => h (by simp [e])
    have hcs : '/' ∉ cs := fun e => h (List.mem_cons_of_mem _ e)
    simp [splitOnSlash, hc, ih hcs]

theorem segments_of_no_slash (name : String) (h : '/' ∉ name.data) : segments name = [name] := by
  simp [segments, splitOnSlash_of_no_slash name.data h]

theorem pathJoin_plain (base : Path) (name : String) (h : plainName name = true) :
    pathJoin base name = base ++ [name] := by
  simp only [plainName, Bool.and_eq_true, Bool.not_eq_true', decide_eq_true_eq] at h
  obtain ⟨⟨⟨h1, h2⟩, h3⟩, h4⟩ := h
  have hs : '/' ∉ name.data := by simpa using h1
  simp [pathJoin, segments_of_no_slash name hs, joinStep, h2, h3, h4]

theorem conversationsDir_eq (dirname : Path) :
    CONVERSATIONS_DIR dirname = dirname ++ ["conversations"] := by
  rfl

theorem length_json (id : String) : (id ++ ".json").length = id.length + 5 := by
  rw [String.length_append]; rfl

theorem plainName_json (id : String) (h : '/' ∉ id.data) : plainName (id ++ ".json") = true := by
  have h1 : id ++ ".json" ≠ "" := by
    intro e
    have h5 := congrArg String.length e
    rw [length_json] at h5
    have h6 : "".length = 0 := rfl
    omega
  have h2 : id ++ ".json" ≠ "." := by
    intro e
    have h5 := congrArg String.length e
    rw [length_json] at h5
    have h6 : ".".length = 1 := rfl
    omega
  have h3 : id ++ ".json" ≠ ".." := by
    intro e
    have h5 := congrArg String.length e
    rw [length_json] at h5
    have h6 : "..".length = 2 := rfl
    omega
  simp [plainName, h1, h2, h3, h]

theorem json_name_injective (a b : String) (h : a ++ ".json" = b ++ ".json") : a = b := by
  have hd := congrArg String.data h
  rw [String.data_append, String.data_append] at hd
  exact String.ext (List.append_cancel_right hd)

/-! ## The directory tree -/

theorem resolve_append (p q : Path) (root : Node) :
    root.resolve (p ++ q) =
      match root.resolve p with
      | .ok n => n.resolve q
      | .error e => .error e := by
  induction p generalizing root with
  | nil => simp [Node.resolve]
  | cons s rest ih =>
    cases root with
    | file c => simp [Node.resolve]
    | dir es =>
      simp only [List.cons_append, Node.resolve]
      cases findEntry s es with
      | none => simp
      | some c => simpa using ih c

theorem fileAt_dir_nil (es : List (String × Node)) : (Node.dir es).fileAt [] = none := by
  simp [Node.fileAt, Node.resolve]

theorem fileAt_dir_cons (es : List (String × Node)) (t : String) (qs : Path) :
    (Node.dir es).fileAt (t :: qs) = slotFileAt (findEntry t es) qs := by
  simp only [Node.fileAt, Node.resolve]
  cases findEntry t es with
  | none => simp [slotFileAt]
  | some c => simp [slotFileAt, Node.fileAt]

theorem fileAt_file_cons (c : String) (t : String) (qs : Path) :
    (Node.file c).fileAt (t :: qs) = none := by
  simp [Node.fileAt, Node.resolve]

theorem fileAt_file_nil (c : String) : (Node.file c).fileAt [] = some c := by
  simp [Node.fileAt, Node.resolve]

theorem mkdirAt_fileAt (p : Path) (slot : Option Node) (r : Node)
    (h : mkdirAt slot p = .ok r) (q : Path) : r.fileAt q = slotFileAt slot q := by
  induction p generalizing slot r q with
  | nil =>
    cases slot with
    | none =>
      simp only [mkdirAt, Except.ok.injEq] at h
      subst h
      cases q with
      | nil => simp [fileAt_dir_nil, slotFileAt]
      | cons t qs => simp [fileAt_dir_cons, slotFileAt, findEntry]
    | some n =>
      cases n with
      | file c => simp [mkdirAt] at h
      | dir es =>
        simp only [mkdirAt, Except.ok.injEq] at h
        subst h
        simp [slotFileAt]
  | cons s rest ih =>
    cases slot with
    | none =>
      simp only [mkdirAt] at h
      split at h
      · cases hc : mkdirAt none rest with
        | error e => simp [hc, Except.map] at h
        | ok c =>
          simp only [hc, Except.map, Except.ok.injEq] at h
          subst h
          cases q with
          | nil => simp [fileAt_dir_nil, slotFileAt]
          | cons t qs =>
            rw [fileAt_dir_cons]
            by_cases ht : s = t
            · subst ht
              simp only [findEntry, if_true]
              simpa [slotFileAt] using ih none c hc qs
            · simp [findEntry, ht, slotFileAt]
      · simp at h
    | some n =>
      cases n with
      | file c => simp [mkdirAt] at h
      | dir es =>
        simp only [mkdirAt] at h
        split at h
        · simp at h
        · cases hc : mkdirAt (findEntry s es) rest with
          | error e => simp [hc, Except.map] at h
          | ok c =>
            simp only [hc, Except.map, Except.ok.injEq] at h
            subst h
            cases q with
            | nil => simp [fileAt_dir_nil, slotFileAt]
            | cons t qs =>
              simp only [slotFileAt]
              rw [fileAt_dir_cons, fileAt_dir_cons]
              by_cases ht : t = s
              · subst ht
                rw [findEntry_putEntry_same]
                simpa [slotFileAt] using ih (findEntry t es) c hc qs
              · rw [findEntry_putEntry_other s t c es ht]

theorem mkdirAt_noop (p : Path) (root : Node) (es : List (String × Node))
    (h : root.resolve p = .ok (.dir es)) : mkdirAt (some root) p = .ok root := by
  induction p generalizing root with
  | nil =>
    simp only [Node.resolve, Except.ok.injEq] at h
    subst h
    rfl
  | cons s rest ih =>
    cases root with
    | file c => simp [Node.resolve] at h
    | dir es0 =>
      simp only [Node.resolve] at h
      cases hf : findEntry s es0 with
      | none => simp [hf] at h
      | some c =>
        simp only [hf] at h
        simp [mkdirAt, hf, ih c h, Except.map, putEntry_self s c es0 hf]

theorem mkdirAt_child (p : Path) (root : Node) (es : List (String × Node)) (name : String)
    (h : root.resolve p = .ok (.dir es)) (hn : findEntry name es = none)
    (hok : nameOk name = true) :
    ∃ r, mkdirAt (some root) (p ++ [name]) = .ok r ∧
      r.resolve p = .ok (.dir (es ++ [(name, .dir [])])) := by
  induction p generalizing root with
  | nil =>
    simp only [Node.resolve, Except.ok.injEq] at h
    subst h
    refine ⟨.dir (es ++ [(name, .dir [])]), ?_, by simp [Node.resolve]⟩
    simp [mkdirAt, hn, hok, Except.map, putEntry_of_none name _ es hn]
  | cons s rest ih =>
    cases root with
    | file c => simp [Node.resolve] at h
    | dir es0 =>
      simp only [Node.resolve] at h
      cases hf : findEntry s es0 with
      | none => simp [hf] at h
      | some c =>
        simp only [hf] at h
        obtain ⟨r, hr1, hr2⟩ := ih c h
        refine ⟨.dir (putEntry s r es0), ?_, ?_⟩
        · simp [mkdirAt, hf, hr1, Except.map]
        · simp [Node.resolve, findEntry_putEntry_same, hr2]

theorem writeAt_fileAt_same (p : Path) (slot : Option Node) (data : String) (r : Node)
    (h : writeAt slot p data = .ok r) : r.fileAt p = some data := by
  induction p generalizing slot r with
  | nil =>
    cases slot with
    | none =>
      simp only [writeAt, Except.ok.injEq] at h
      subst h
      exact fileAt_file_nil data
    | some n =>
      cases n with
      | file c =>
        simp only [writeAt, Except.ok.injEq] at h
        subst h
        exact fileAt_file_nil data
      | dir es => simp [writeAt] at h
  | cons s rest ih =>
    cases slot with
    | none => simp [writeAt] at h
    | some n =>
      cases n with
      | file c => simp [writeAt] at h
      | dir es =>
        simp only [writeAt] at h
        split at h
        · simp at h
        · cases hc : writeAt (findEntry s es) rest data with
          | error e => simp [hc, Except.map] at h
          | ok c =>
            simp only [hc, Except.map, Except.ok.injEq] at h
            subst h
            rw [fileAt_dir_cons, findEntry_putEntry_same]
            simpa [slotFileAt] using ih (findEntry s es) c hc

theorem writeAt_fileAt_other (p : Path) (slot : Option Node) (data : String) (r : Node)
    (h : writeAt slot p data = .ok r) (q : Path) (hq : q ≠ p) :
    r.fileAt q = slotFileAt slot q := by
  induction p generalizing slot r q with
  | nil =>
    cases q with
    | nil => exact absurd rfl hq
    | cons t qs =>
      cases slot with
      | none =>
        simp only [writeAt, Except.ok.injEq] at h
        subst h
        simp [fileAt_file_cons, slotFileAt]
      | some n =>
        cases n with
        | file c =>
          simp only [writeAt, Except.ok.injEq] at h
          subst h
          simp [fileAt_file_cons, slotFileAt]
        | dir es => simp [writeAt] at h
  | cons s rest ih =>
    cases slot with
    | none => simp [writeAt] at h
    | some n =>
      cases n with
      | file c => simp [writeAt] at h
      | dir es =>
        simp only [writeAt] at h
        split at h
        · simp at h
        · cases hc : writeAt (findEntry s es) rest data with
          | error e => simp [hc, Except.map] at h
          | ok c =>
            simp only [hc, Except.map, Except.ok.injEq] at h
            subst h
            cases q with
            | nil => simp [fileAt_dir_nil, slotFileAt]
            | cons t qs =>
              simp only [slotFileAt]
              rw [fileAt_dir_cons, fileAt_dir_cons]
              by_cases ht : t = s
              · subst ht
                rw [findEntry_putEntry_same]
                have hqs : qs ≠ rest := fun e => hq (by rw [e])
                simpa [slotFileAt] using ih (findEntry t es) c hc qs hqs
              · rw [findEntry_putEntry_other s t c es ht]

theorem writeAt_child (p : Path) (root : Node) (es : List (String × Node)) (name data : String)
    (h : root.resolve p = .ok (.dir es))
    (hd : ∀ es2, findEntry name es ≠ some (.dir es2))
    (hok : findEntry name es = none → nameOk name = true) :
    ∃ r, writeAt (some root) (p ++ [name]) data = .ok r ∧
      r.resolve p = .ok (.dir (putEntry name (.file data) es)) := by
  induction p generalizing root with
  | nil =>
    simp only [Node.resolve, Except.ok.injEq] at h
    subst h
    refine ⟨.dir (putEntry name (.file data) es), ?_, by simp [Node.resolve]⟩
    cases hf : findEntry name es with
    | none => simp [writeAt, hf, hok hf, Except.map]
    | some c =>
      cases c with
      | file c0 => simp [writeAt, hf, Except.map]
      | dir es2 => exact absurd hf (hd es2)
  | cons s rest ih =>
    cases root with
    | file c => simp [Node.resolve] at h
    | dir es0 =>
      simp only [Node.resolve] at h
      cases hf : findEntry s es0 with
      | none => simp [hf] at h
      | some c =>
        simp only [hf] at h
        obtain ⟨r, hr1, hr2⟩ := ih c h
        refine ⟨.dir (putEntry s r es0), ?_, ?_⟩
        · simp [writeAt, hf, hr1, Except.map]
        · simp [Node.resolve, findEntry_putEntry_same, hr2]

/-! ## The handlers on the directory tree -/

theorem promiseAll_forall2 {α β : Type} (f : α → Except JsError β) (xs : List α) (vs : List β)
    (h : List.Forall₂ (fun x v => f x = .ok v) xs vs) : promiseAll (xs.map f) = .ok vs := by
  induction h with
  | nil => rfl
  | cons hx _ ih => simp [promiseAll, hx, ih]

theorem forall2_of_forall_exists {α β : Type} (R : α → β → Prop) (xs : List α)
    (h : ∀ x ∈ xs, ∃ v, R x v) : ∃ vs, List.Forall₂ R xs vs := by
  induction xs with
  | nil => exact ⟨[], List.Forall₂.nil⟩
  | cons x xs ih =>
    obtain ⟨v, hv⟩ := h x (List.mem_cons_self x xs)
    obtain ⟨vs, hvs⟩ := ih (fun y hy => h y (List.mem_cons_of_mem x hy))
    exact ⟨v :: vs, List.Forall₂.cons hv hvs⟩

theorem forall2_mem_left {α β : Type} (R : α → β → Prop) (xs : List α) (vs : List β)
    (h : List.Forall₂ R xs vs) (x : α) (hx : x ∈ xs) : ∃ v, v ∈ vs ∧ R x v := by
  induction h with
  | nil => simp at hx
  | cons hr _ ih =>
    rcases List.mem_cons.mp hx with h1 | h1
    · subst h1
      exact ⟨_, List.mem_cons_self _ _, hr⟩
    · obtain ⟨v, hv, hR⟩ := ih h1
      exact ⟨v, List.mem_cons_of_mem _ hv, hR⟩

theorem ensure_tree_noop (dirname : Path) (root : Node) (es : List (String × Node))
    (h : root.resolve (CONVERSATIONS_DIR dirname) = .ok (.dir es)) :
    ensureConversationsDir treeFs dirname root = (root, []) := by
  simp [ensureConversationsDir, treeFs, mkdirAt_noop _ root es h]

theorem nameOk_conversations : nameOk "conversations" = true := by
  decide

theorem ensure_tree (dirname : Path) (root : Node) (es0 es : List (String × Node))
    (hroot : root.resolve dirname = .ok (.dir es0)) (hconv : convEntries es0 = some es) :
    ∃ root1, ensureConversationsDir treeFs dirname root = (root1, []) ∧
      root1.resolve (CONVERSATIONS_DIR dirname) = .ok (.dir es) ∧
      ∀ q, root1.fileAt q = root.fileAt q := by
  cases hf : findEntry "conversations" es0 with
  | none =>
    have hes : es = [] := by simpa [convEntries, hf] using hconv.symm
    subst hes
    obtain ⟨r, hr1, hr2⟩ :=
      mkdirAt_child dirname root es0 "conversations" hroot hf nameOk_conversations
    refine ⟨r, ?_, ?_, ?_⟩
    · simp [ensureConversationsDir, treeFs, conversationsDir_eq, hr1]
    · rw [conversationsDir_eq, resolve_append, hr2, ← putEntry_of_none _ _ es0 hf]
      simp [Node.resolve, findEntry_putEntry_same]
    · intro q
      simpa [slotFileAt] using mkdirAt_fileAt _ _ r hr1 q
  | some c =>
    cases c with
    | file c0 => simp [convEntries, hf] at hconv
    | dir es1 =>
      have hes : es1 = es := by simpa [convEntries, hf] using hconv
      subst hes
      have h : root.resolve (CONVERSATIONS_DIR dirname) = .ok (.dir es1) := by
        rw [conversationsDir_eq, resolve_append, hroot]
        simp [Node.resolve, hf]
      exact ⟨root, ensure_tree_noop dirname root es1 h, h, fun _ => rfl⟩

theorem readConversation_tree (json : JsonApi) (dirname : Path) (root : Node)
    (es : List (String × Node)) (name content : String)
    (h : root.resolve (CONVERSATIONS_DIR dirname) = .ok (.dir es)) (hw : WfDir es)
    (hm : (name, Node.file content) ∈ es) :
    readConversation treeFs json dirname root name = json.parse content := by
  have hp : pathJoin (CONVERSATIONS_DIR dirname) name = CONVERSATIONS_DIR dirname ++ [name] :=
    pathJoin_plain _ name (hw.2 _ hm)
  have hf := findEntry_of_mem name (.file content) es hw.1 hm
  simp [readConversation, treeFs, hp, resolve_append, h, Node.resolve, hf]

theorem readAll_tree (json : JsonApi) (dirname : Path) (root : Node)
    (es : List (String × Node)) (vs : List Json)
    (h : root.resolve (CONVERSATIONS_DIR dirname) = .ok (.dir es)) (hw : WfDir es)
    (hs : List.Forall₂ (StoredAs json) es vs) :
    readAll treeFs json dirname root = .ok vs := by
  have key : ∀ (l : List (String × Node)) (ws : List Json), (∀ e ∈ l, e ∈ es) →
      List.Forall₂ (StoredAs json) l ws →
      List.Forall₂ (fun x v => readConversation treeFs json dirname root x = .ok v)
        (l.map Prod.fst) ws := by
    intro l ws hl hfa
    induction hfa with
    | nil => exact List.Forall₂.nil
    | @cons e v l2 ws2 hr _ ih =>
      obtain ⟨content, hc1, hc2⟩ := hr
      have hmem : (e.1, Node.file content) ∈ es := by
        have := hl e (List.mem_cons_self _ _)
        rw [← hc1]
        exact this
      refine List.Forall₂.cons ?_ (ih (fun x hx => hl x (List.mem_cons_of_mem _ hx)))
      rw [readConversation_tree json dirname root es e.1 content h hw hmem, hc2]
  have hrd : treeFs.readdir (CONVERSATIONS_DIR dirname) root = .ok (es.map Prod.fst) := by
    simp [treeFs, h]
  simp only [readAll, hrd]
  exact promiseAll_forall2 _ _ _ (key es vs (fun _ he => he) hs)

theorem list_tree (json : JsonApi) (dirname : Path) (root : Node)
    (es : List (String × Node)) (vs : List Json)
    (h : root.resolve (CONVERSATIONS_DIR dirname) = .ok (.dir es)) (hw : WfDir es)
    (hs : List.Forall₂ (StoredAs json) es vs) :
    listConversations treeFs json dirname root = ⟨root, ⟨200, .arr vs⟩, []⟩ := by
  simp [listConversations, ensure_tree_noop dirname root es h,
    readAll_tree json dirname root es vs h hw hs]

theorem savePath_of_string_id (dirname : Path) (body : Json) (id : String)
    (hid : getId body = .ok (some (.str id))) :
    savePath dirname body = .ok (pathJoin (CONVERSATIONS_DIR dirname) (id ++ ".json")) := by
  simp [savePath, hid, fileNameOf, toStringJs, Except.map]

theorem savePath_of_plain_id (dirname : Path) (body : Json) (id : String)
    (hid : getId body = .ok (some (.str id))) (hs : '/' ∉ id.data) :
    savePath dirname body = .ok (CONVERSATIONS_DIR dirname ++ [id ++ ".json"]) := by
  rw [savePath_of_string_id dirname body id hid, pathJoin_plain _ _ (plainName_json id hs)]

theorem treeFs_writeFile (p : Path) (data : String) (root : Node) :
    treeFs.writeFile p data root =
      match writeAt (some root) p data with
      | .ok r => (.ok (), r)
      | .error e => (.error e, root) := rfl

theorem treeFs_mkdir (p : Path) (root : Node) :
    treeFs.mkdir p root =
      match mkdirAt (some root) p with
      | .ok r => (.ok (), r)
      | .error e => (.error e, root) := rfl

theorem save_tree (json : JsonApi) (dirname : Path) (root : Node)
    (es : List (String × Node)) (body : Json) (id : String)
    (h : root.resolve (CONVERSATIONS_DIR dirname) = .ok (.dir es))
    (hid : getId body = .ok (some (.str id))) (hs : '/' ∉ id.data)
    (hd : ∀ es2, findEntry (id ++ ".json") es ≠ some (.dir es2))
    (hok : findEntry (id ++ ".json") es = none → nameOk (id ++ ".json") = true) :
    ∃ root2, saveConversation treeFs json dirname body root = ⟨root2, saveSuccess, []⟩ ∧
      root2.resolve (CONVERSATIONS_DIR dirname) =
        .ok (.dir (putEntry (id ++ ".json") (.file (json.stringify body 2)) es)) ∧
      root2.fileAt (CONVERSATIONS_DIR dirname ++ [id ++ ".json"]) = some (json.stringify body 2) ∧
      ∀ q, q ≠ CONVERSATIONS_DIR dirname ++ [id ++ ".json"] → root2.fileAt q = root.fileAt q := by
  obtain ⟨r, hr1, hr2⟩ :=
    writeAt_child (CONVERSATIONS_DIR dirname) root es (id ++ ".json") (json.stringify body 2) h hd hok
  refine ⟨r, ?_, hr2, writeAt_fileAt_same _ _ _ r hr1, ?_⟩
  · simp [saveConversation, ensure_tree_noop dirname root es h,
      savePath_of_plain_id dirname body id hid hs, treeFs_writeFile, hr1]
  · intro q hq
    simpa [slotFileAt] using writeAt_fileAt_other _ _ _ r hr1 q hq

theorem save_after_ensure {σ : Type} (fs : FsApi σ) (json : JsonApi) (dirname : Path)
    (body : Json) (s s1 : σ)
    (h : ensureConversationsDir fs dirname s = (s1, []))
    (h1 : ensureConversationsDir fs dirname s1 = (s1, [])) :
    saveConversation fs json dirname body s = saveConversation fs json dirname body s1 := by
  simp [saveConversation, h, h1]

theorem list_after_ensure {σ : Type} (fs : FsApi σ) (json : JsonApi) (dirname : Path)
    (s s1 : σ)
    (h : ensureConversationsDir fs dirname s = (s1, []))
    (h1 : ensureConversationsDir fs dirname s1 = (s1, [])) :
    listConversations fs json dirname s = listConversations fs json dirname s1 := by
  simp [listConversations, h, h1]

theorem ensure_tree_fileAt (dirname : Path) (root : Node) (q : Path) :
    (ensureConversationsDir treeFs dirname root).1.fileAt q = root.fileAt q := by
  simp only [ensureConversationsDir, treeFs_mkdir]
  cases hm : mkdirAt (some root) (CONVERSATIONS_DIR dirname) with
  | error e => simp
  | ok r => simpa [slotFileAt] using mkdirAt_fileAt _ _ r hm q

theorem save_tree_frame (json : JsonApi) (dirname : Path) (body : Json) (root : Node)
    (file : Path) (hp : savePath dirname body = .ok file) (q : Path) (hq : q ≠ file) :
    (saveConversation treeFs json dirname body root).state.fileAt q = root.fileAt q := by
  have he := ensure_tree_fileAt dirname root q
  simp only [saveConversation, hp]
  cases hen : ensureConversationsDir treeFs dirname root with
  | mk s1 logged =>
    rw [hen] at he
    simp only at he
    simp only [treeFs_writeFile]
    cases hw : writeAt (some s1) file (json.stringify body 2) with
    | error e => simpa using he
    | ok r =>
      simp only
      rw [← he]
      simpa [slotFileAt] using writeAt_fileAt_other _ _ _ r hw q hq

/-! ## Induction over JSON values -/

mutual
theorem Json.induct (P : Json → Prop)
    (hnull : P .null) (hbool : ∀ b, P (.bool b)) (hnum : ∀ t, P (.num t)) (hstr : ∀ s, P (.str s))
    (harr : ∀ items, (∀ x ∈ items, P x) → P (.arr items))
    (hobj : ∀ members, (∀ m ∈ members, P m.2) → P (.obj members)) :
    ∀ v, P v
  | .null => hnull
  | .bool b => hbool b
  | .num t => hnum t
  | .str s => hstr s
  | .arr items => harr items (Json.induct_items P hnull hbool hnum hstr harr hobj items)
  | .obj members => hobj members (Json.induct_members P hnull hbool hnum hstr harr hobj members)
theorem Json.induct_items (P : Json → Prop)
    (hnull : P .null) (hbool : ∀ b, P (.bool b)) (hnum : ∀ t, P (.num t)) (hstr : ∀ s, P (.str s))
    (harr : ∀ items, (∀ x ∈ items, P x) → P (.arr items))
    (hobj : ∀ members, (∀ m ∈ members, P m.2) → P (.obj members)) :
    ∀ items : List Json, ∀ x ∈ items, P x
  | [], _, h => by simp at h
  | y :: ys, x, h => by
    rcases List.mem_cons.mp h with h1 | h1
    · rw [h1]; exact Json.induct P hnull hbool hnum hstr harr hobj y
    · exact Json.induct_items P hnull hbool hnum hstr harr hobj ys x h1
theorem Json.induct_members (P : Json → Prop)
    (hnull : P .null) (hbool : ∀ b, P (.bool b)) (hnum : ∀ t, P (.num t)) (hstr : ∀ s, P (.str s))
    (harr : ∀ items, (∀ x ∈ items, P x) → P (.arr items))
    (hobj : ∀ members, (∀ m ∈ members, P m.2) → P (.obj members)) :
    ∀ members : List (String × Json), ∀ m ∈ members, P m.2
  | [], _, h => by simp at h
  | (k, v) :: ms, m, h => by
    rcases List.mem_cons.mp h with h1 | h1
    · rw [h1]; exact Json.induct P hnull hbool hnum hstr harr hobj v
    · exact Json.induct_members P hnull hbool hnum hstr harr hobj ms m h1
end

/-! ## The JSON codec: white space and numbers -/

theorem skipWs_replicate (n : Nat) (cs : List Char) :
    skipWs (List.replicate n ' ' ++ cs) = skipWs cs := by
  induction n with
  | zero => rfl
  | succ n ih =>
    have h : isJsonWs ' ' = true := by decide
    simp [List.replicate_succ, skipWs, h, ih]

theorem skipWs_lineBreak (gap depth : Nat) (cs : List Char) :
    skipWs (lineBreak gap depth ++ cs) = skipWs cs := by
  unfold lineBreak
  split
  · rfl
  · have h : isJsonWs (Char.ofNat 10) = true := by decide
    simp only [List.cons_append, skipWs, h, if_true]
    exact skipWs_replicate _ cs

theorem skipWs_cons_of_not_ws (c : Char) (cs : List Char) (h : isJsonWs c = false) :
    skipWs (c :: cs) = c :: cs := by
  simp [skipWs, h]

theorem numStep_of_stop (st : NumState) (c : Char) (h : isStop c = true) :
    numStep st c = none := by
  simp only [isStop, isJsonWs, Bool.or_eq_true, decide_eq_true_eq] at h
  rcases h with ((h | h) | h) | (((h | h) | h) | h) <;> subst h <;> cases st <;> decide

theorem scanNumber_append (cs rest : List Char) (st : NumState)
    (h : (scanNumber st cs).2.2 = []) (hr : Delimited rest) :
    scanNumber st (cs ++ rest) = (cs, (scanNumber st cs).2.1, rest) := by
  induction cs generalizing st with
  | nil =>
    cases rest with
    | nil => rfl
    | cons c r =>
      have hs : numStep st c = none := numStep_of_stop st c hr
      simp [scanNumber, hs]
  | cons c cs ih =>
    cases hs : numStep st c with
    | none => simp [scanNumber, hs] at h
    | some next =>
      simp only [scanNumber, hs] at h
      have e := ih next h
      show scanNumber st (c :: (cs ++ rest)) = _
      simp only [scanNumber, hs, e]

theorem readNumber_text (text : String) (rest : List Char)
    (h : isNumberText text = true) (hr : Delimited rest) :
    readNumber (text.data ++ rest) = some (text.data, rest) := by
  simp only [isNumberText, Bool.and_eq_true, List.isEmpty_iff] at h
  simp only [readNumber]
  rw [scanNumber_append text.data rest .start h.2 hr]
  simp [h.1]

theorem numberText_head (text : String) (h : isNumberText text = true) :
    ∃ c cs, text.data = c :: cs ∧ numStep .start c ≠ none := by
  cases hd : text.data with
  | nil =>
    simp [isNumberText, hd, scanNumber, NumState.accepting] at h
  | cons c cs =>
    refine ⟨c, cs, rfl, ?_⟩
    intro hn
    simp [isNumberText, hd, scanNumber, hn, NumState.accepting] at h


/-! ## The JSON codec: strings -/

theorem hexVal_hexDigit (k : Nat) (h : k < 16) : hexVal (hexDigit k) = some k := by
  interval_cases k <;> decide

theorem hex4_control (n : Nat) (h : n < 32) :
    hex4 '0' '0' (hexDigit (n / 16)) (hexDigit (n % 16)) = some n := by
  have h1 : hexVal '0' = some 0 := by decide
  have h2 := hexVal_hexDigit (n / 16) (by omega)
  have h3 := hexVal_hexDigit (n % 16) (by omega)
  simp only [hex4, h1, h2, h3, Option.some.injEq]
  omega

theorem readStrItems_cons (c : Char) (rest : List Char) :
    readStrItems (c :: rest) =
      if c = '"' then some ([], rest)
      else if c = '\\' then
        match rest with
        | [] => none
        | e :: rest1 =>
          if e = 'u' then
            match rest1 with
            | a :: b :: c2 :: d :: rest2 =>
              match hex4 a b c2 d, readStrItems rest2 with
              | some n, some (items, r) => some (.unit n :: items, r)
              | _, _ => none
            | _ => none
          else
            match unescape e, readStrItems rest1 with
            | some ch, some (items, r) => some (.plain ch :: items, r)
            | _, _ => none
      else if c.toNat < 32 then none
      else
        match readStrItems rest with
        | some (items, r) => some (.plain c :: items, r)
        | none => none := by
  conv => lhs; unfold readStrItems

theorem readStrItems_escape (e ch : Char) (tail : List Char) (hu : e ≠ 'u')
    (he : unescape e = some ch) :
    readStrItems ('\\' :: e :: tail) =
      match readStrItems tail with
      | some (items, r) => some (.plain ch :: items, r)
      | none => none := by
  have e1 : ¬ ('\\' = '"') := by decide
  rw [readStrItems_cons]
  simp only [e1, if_false, if_true, hu, he]
  cases readStrItems tail <;> rfl

theorem readStrItems_quoteChar (c : Char) (tail : List Char) :
    readStrItems (quoteChar c ++ tail) =
      match readStrItems tail with
      | some (items, r) => some (quoteItem c :: items, r)
      | none => none := by
  unfold quoteChar quoteItem
  split
  · next h => subst h; exact readStrItems_escape _ _ tail (by decide) (by decide)
  split
  · next h => subst h; exact readStrItems_escape _ _ tail (by decide) (by decide)
  split
  · next h => subst h; exact readStrItems_escape _ _ tail (by decide) (by decide)
  split
  · next h => subst h; exact readStrItems_escape _ _ tail (by decide) (by decide)
  split
  · next h => subst h; exact readStrItems_escape _ _ tail (by decide) (by decide)
  split
  · next h => subst h; exact readStrItems_escape _ _ tail (by decide) (by decide)
  split
  · next h => subst h; exact readStrItems_escape _ _ tail (by decide) (by decide)
  split
  · next h1 h2 h3 h4 h5 h6 h7 h =>
    have hx := hex4_control c.toNat h
    have e1 : ¬ ('\\' = '"') := by decide
    show readStrItems ('\\' :: 'u' :: '0' :: '0' :: hexDigit (c.toNat / 16)
      :: hexDigit (c.toNat % 16) :: tail) = _
    rw [readStrItems_cons]
    simp only [e1, if_false, if_true, hx]
    cases readStrItems tail <;> rfl
  · next h1 h2 h3 h4 h5 h6 h7 h =>
    show readStrItems (c :: tail) = _
    rw [readStrItems_cons]
    simp only [h1, h2, h, if_false]

theorem readStrItems_quoted (s rest : List Char) :
    readStrItems (s.flatMap quoteChar ++ '"' :: rest) = some (s.map quoteItem, rest) := by
  induction s with
  | nil =>
    show readStrItems ('"' :: rest) = _
    rw [readStrItems_cons]
    simp
  | cons c s ih =>
    simp only [List.flatMap_cons, List.append_assoc, List.map_cons]
    rw [readStrItems_quoteChar, ih]

theorem decodeFrom_quoteItem (c : Char) (items : List StrItem) :
    decodeFrom none (quoteItem c :: items) = c :: decodeFrom none items := by
  unfold quoteItem
  repeat' split
  all_goals try rfl
  next h =>
    have h1 : isHighSurrogate c.toNat = false := by
      simp only [isHighSurrogate, Bool.and_eq_false_iff, decide_eq_false_iff_not]
      left; omega
    have h2 : isLowSurrogate c.toNat = false := by
      simp only [isLowSurrogate, Bool.and_eq_false_iff, decide_eq_false_iff_not]
      left; omega
    simp [decodeFrom, h1, h2]

theorem decodeItems_quoted (s : List Char) : decodeItems (s.map quoteItem) = s := by
  unfold decodeItems
  induction s with
  | nil => rfl
  | cons c s ih => rw [List.map_cons, decodeFrom_quoteItem, ih]

theorem readString_quoted (s : String) (rest : List Char) :
    readString (s.data.flatMap quoteChar ++ '"' :: rest) = some (s.data, rest) := by
  simp [readString, readStrItems_quoted, decodeItems_quoted]


/-! ## The JSON codec: reading back what was written -/

theorem readValue_zero (cs : List Char) : readValue 0 cs = none := by
  conv => lhs; unfold readValue

theorem readValue_succ (fuel : Nat) (cs : List Char) :
    readValue (fuel + 1) cs =
      match skipWs cs with
      | [] => none
      | c :: rest =>
        if c = '"' then
          match readString rest with
          | some (s, r) => some (.str (String.mk s), r)
          | none => none
        else if c = '[' then
          match skipWs rest with
          | [] => none
          | c2 :: r =>
            if c2 = ']' then some (.arr [], r)
            else
              match readItems fuel rest with
              | some (items, r3) => some (.arr items, r3)
              | none => none
        else if c = '\x7b' then
          match skipWs rest with
          | [] => none
          | c2 :: r =>
            if c2 = '\x7d' then some (.obj [], r)
            else
              match readMembers fuel [] rest with
              | some (members, r3) => some (.obj members, r3)
              | none => none
        else if c = 'n' then
          match rest with
          | 'u' :: 'l' :: 'l' :: r => some (.null, r)
          | _ => none
        else if c = 't' then
          match rest with
          | 'r' :: 'u' :: 'e' :: r => some (.bool true, r)
          | _ => none
        else if c = 'f' then
          match rest with
          | 'a' :: 'l' :: 's' :: 'e' :: r => some (.bool false, r)
          | _ => none
        else
          match readNumber (c :: rest) with
          | some (lit, r) => some (.num (String.mk lit), r)
          | none => none := by
  conv => lhs; unfold readValue

theorem readItems_succ (fuel : Nat) (cs : List Char) :
    readItems (fuel + 1) cs =
      match readValue fuel cs with
      | none => none
      | some (v, r) =>
        match skipWs r with
        | [] => none
        | c :: r2 =>
          if c = ',' then
            match readItems fuel r2 with
            | some (vs, r3) => some (v :: vs, r3)
            | none => none
          else if c = ']' then some ([v], r2)
          else none := by
  conv => lhs; unfold readItems

theorem readMembers_succ (fuel : Nat) (acc : List (String × Json)) (cs : List Char) :
    readMembers (fuel + 1) acc cs =
      match skipWs cs with
      | [] => none
      | q :: r0 =>
        if q = '"' then
          match readString r0 with
          | none => none
          | some (k, r1) =>
            match skipWs r1 with
            | [] => none
            | c :: r2 =>
              if c = ':' then
                match readValue fuel r2 with
                | none => none
                | some (v, r3) =>
                  match skipWs r3 with
                  | [] => none
                  | d :: r4 =>
                    if d = ',' then readMembers fuel (putMember (String.mk k) v acc) r4
                    else if d = '\x7d' then some (putMember (String.mk k) v acc, r4)
                    else none
              else none
        else none := by
  conv => lhs; unfold readMembers

theorem readValue_skipWs (fuel : Nat) (cs : List Char) :
    readValue fuel (skipWs cs) = readValue fuel cs := by
  have hs : skipWs (skipWs cs) = skipWs cs := by
    induction cs with
    | nil => rfl
    | cons c cs ih =>
      by_cases h : isJsonWs c = true
      · simp [skipWs, h, ih]
      · simp [skipWs, h]
  cases fuel with
  | zero => rw [readValue_zero, readValue_zero]
  | succ f => rw [readValue_succ, readValue_succ, hs]

theorem readValue_lineBreak (fuel gap depth : Nat) (cs : List Char) :
    readValue fuel (lineBreak gap depth ++ cs) = readValue fuel cs := by
  rw [← readValue_skipWs, skipWs_lineBreak, readValue_skipWs]

theorem readValue_colon_tail (fuel : Nat) (cs : List Char) :
    readValue fuel (' ' :: cs) = readValue fuel cs := by
  rw [← readValue_skipWs fuel (' ' :: cs)]
  have h : isJsonWs ' ' = true := by decide
  simp only [skipWs, h, if_true]
  rw [readValue_skipWs]

theorem numStep_start_head (c : Char) (h : numStep .start c ≠ none) :
    isJsonWs c = false ∧ c ≠ '"' ∧ c ≠ '[' ∧ c ≠ ']' ∧ c ≠ '\x7b' ∧ c ≠ 'n' ∧ c ≠ 't'
      ∧ c ≠ 'f' := by
  refine ⟨?_, ?_, ?_, ?_, ?_, ?_, ?_, ?_⟩
  · cases hw : isJsonWs c with
    | false => rfl
    | true =>
      exfalso
      apply h
      simp only [isJsonWs, Bool.or_eq_true, decide_eq_true_eq] at hw
      rcases hw with ((hw | hw) | hw) | hw <;> subst hw <;> decide
  all_goals
    intro e
    apply h
    subst e
    decide


theorem delimited_close (gap depth : Nat) (close : Char) (rest : List Char)
    (hc : isStop close = true) : Delimited (lineBreak gap depth ++ close :: rest) := by
  unfold lineBreak
  split
  · exact hc
  · show isStop (Char.ofNat 10) = true
    decide

theorem delimited_items (gap depth depth2 : Nat) (xs : List Json) (rest : List Char) :
    Delimited (renderItems gap depth xs ++ (lineBreak gap depth2 ++ ']' :: rest)) := by
  cases xs with
  | nil =>
    simp only [renderItems, List.nil_append]
    exact delimited_close gap depth2 ']' rest (by decide)
  | cons x xs =>
    simp only [renderItems, List.cons_append]
    show isStop ',' = true
    decide

theorem delimited_members (gap depth depth2 : Nat) (ms : List (String × Json))
    (rest : List Char) :
    Delimited (renderMembers gap depth ms ++ (lineBreak gap depth2 ++ '\x7d' :: rest)) := by
  cases ms with
  | nil =>
    simp only [renderMembers, List.nil_append]
    exact delimited_close gap depth2 '\x7d' rest (by decide)
  | cons m ms =>
    obtain ⟨k, v⟩ := m
    simp only [renderMembers, List.cons_append]
    show isStop ',' = true
    decide

theorem skipWs_close (gap depth : Nat) (close : Char) (rest : List Char)
    (hc : isJsonWs close = false) :
    skipWs (lineBreak gap depth ++ close :: rest) = close :: rest := by
  rw [skipWs_lineBreak, skipWs_cons_of_not_ws close rest hc]

theorem render_head (gap depth : Nat) (v : Json) (hv : v.valid = true) :
    ∃ c cs, render gap depth v = c :: cs ∧ isJsonWs c = false ∧ c ≠ ']' := by
  cases v with
  | null => exact ⟨'n', _, rfl, by decide, by decide⟩
  | bool b =>
    cases b
    · exact ⟨'f', _, rfl, by decide, by decide⟩
    · exact ⟨'t', _, rfl, by decide, by decide⟩
  | num text =>
    have hn : isNumberText text = true := by simpa [Json.valid] using hv
    obtain ⟨c, cs, h1, h2⟩ := numberText_head text hn
    have h3 := numStep_start_head c h2
    exact ⟨c, cs, by simp [render, h1], h3.1, h3.2.2.2.1⟩
  | str s => exact ⟨'"', _, rfl, by decide, by decide⟩
  | arr items =>
    cases items with
    | nil => exact ⟨'[', _, rfl, by decide, by decide⟩
    | cons x xs => exact ⟨'[', _, by simp only [render]; rfl, by decide, by decide⟩
  | obj members =>
    cases members with
    | nil => exact ⟨'\x7b', _, rfl, by decide, by decide⟩
    | cons m ms =>
      obtain ⟨k, w⟩ := m
      exact ⟨'\x7b', _, by simp only [render]; rfl, by decide, by decide⟩

theorem readItems_rendered (xs : List Json) :
    ∀ (x : Json) (gap depth depth2 : Nat) (rest : List Char) (fuel : Nat),
      ReadsBack x → (∀ y ∈ xs, ReadsBack y) → x.valid = true → validItems xs = true →
      1 + x.size + sizeItems xs ≤ fuel →
      readItems fuel (lineBreak gap depth ++ (render gap depth x ++ (renderItems gap depth xs
        ++ (lineBreak gap depth2 ++ ']' :: rest)))) = some (x :: xs, rest) := by
  induction xs with
  | nil =>
    intro x gap depth depth2 rest fuel hx _ hvx _ hfuel
    obtain ⟨f, rfl⟩ : ∃ f, fuel = f + 1 := ⟨fuel - 1, by omega⟩
    have hsz : x.size ≤ f := by simp only [sizeItems] at hfuel; omega
    rw [readItems_succ, readValue_lineBreak,
      hx hvx gap depth _ f hsz (delimited_items gap depth depth2 [] rest)]
    simp only [renderItems, List.nil_append]
    rw [skipWs_close gap depth2 ']' rest (by decide)]
    have e1 : ¬ (']' = ',') := by decide
    simp only [e1, if_false, if_true]
  | cons y ys ih =>
    intro x gap depth depth2 rest fuel hx hall hvx hvxs hfuel
    obtain ⟨f, rfl⟩ : ∃ f, fuel = f + 1 := ⟨fuel - 1, by omega⟩
    simp only [sizeItems] at hfuel
    have hsz : x.size ≤ f := by omega
    simp only [validItems, Bool.and_eq_true] at hvxs
    rw [readItems_succ, readValue_lineBreak,
      hx hvx gap depth _ f hsz (delimited_items gap depth depth2 (y :: ys) rest)]
    simp only [renderItems, List.cons_append, List.append_assoc]
    rw [skipWs_cons_of_not_ws ',' _ (by decide)]
    simp only [if_true]
    rw [ih y gap depth depth2 rest f (hall y (List.mem_cons_self _ _))
      (fun z hz => hall z (List.mem_cons_of_mem _ hz)) hvxs.1 hvxs.2 (by omega)]


theorem putMember_of_not_mem (k : String) (v : Json) (acc : List (String × Json))
    (h : k ∉ acc.map Prod.fst) : putMember k v acc = acc ++ [(k, v)] := by
  induction acc with
  | nil => rfl
  | cons m acc ih =>
    obtain ⟨k2, v2⟩ := m
    simp only [List.map_cons, List.mem_cons, not_or] at h
    have h2 : ¬ k2 = k := fun e => h.1 e.symm
    simp [putMember, h2, ih h.2]

theorem quoteJs_append (k : String) (tail : List Char) :
    quoteJs k ++ tail = '"' :: (k.data.flatMap quoteChar ++ '"' :: tail) := by
  simp [quoteJs]

theorem skipWs_colon (gap : Nat) (tail : List Char) :
    ∃ r2, skipWs (colon gap ++ tail) = ':' :: r2 ∧
      ∀ fuel, readValue fuel r2 = readValue fuel tail := by
  unfold colon
  split
  · exact ⟨tail, skipWs_cons_of_not_ws ':' _ (by decide), fun _ => rfl⟩
  · exact ⟨' ' :: tail, skipWs_cons_of_not_ws ':' _ (by decide),
      fun fuel => readValue_colon_tail fuel tail⟩

theorem readMembers_rendered (ms : List (String × Json)) :
    ∀ (k : String) (v : Json) (acc : List (String × Json)) (gap depth depth2 : Nat)
      (rest : List Char) (fuel : Nat),
      ReadsBack v → (∀ m ∈ ms, ReadsBack m.2) → v.valid = true → validMembers ms = true →
      ((acc ++ (k, v) :: ms).map Prod.fst).Nodup →
      1 + v.size + sizeMembers ms ≤ fuel →
      readMembers fuel acc (lineBreak gap depth ++ (quoteJs k ++ (colon gap
        ++ (render gap depth v ++ (renderMembers gap depth ms
        ++ (lineBreak gap depth2 ++ '\x7d' :: rest)))))) = some (acc ++ (k, v) :: ms, rest) := by
  induction ms with
  | nil =>
    intro k v acc gap depth depth2 rest fuel hv _ hvv _ hnd hfuel
    obtain ⟨f, rfl⟩ : ∃ f, fuel = f + 1 := ⟨fuel - 1, by omega⟩
    have hsz : v.size ≤ f := by simp only [sizeMembers] at hfuel; omega
    have hk : k ∉ acc.map Prod.fst := by
      intro hm
      rw [List.map_append, List.nodup_append] at hnd
      exact hnd.2.2 hm (by simp)
    obtain ⟨r2, hc1, hc2⟩ := skipWs_colon gap (render gap depth v ++ (renderMembers gap depth []
      ++ (lineBreak gap depth2 ++ '\x7d' :: rest)))
    rw [readMembers_succ, skipWs_lineBreak, quoteJs_append,
      skipWs_cons_of_not_ws '"' _ (by decide)]
    simp only [if_true]
    rw [readString_quoted]
    simp only [hc1, if_true]
    rw [hc2, hv hvv gap depth _ f hsz (delimited_members gap depth depth2 [] rest)]
    simp only [renderMembers, List.nil_append]
    rw [skipWs_close gap depth2 '\x7d' rest (by decide)]
    have e1 : ¬ ('\x7d' = ',') := by decide
    simp only [e1, if_false, if_true]
    rw [show String.mk k.data = k from rfl]
    rw [putMember_of_not_mem k v acc hk]
  | cons m ms ih =>
    obtain ⟨k2, v2⟩ := m
    intro k v acc gap depth depth2 rest fuel hv hall hvv hvms hnd hfuel
    obtain ⟨f, rfl⟩ : ∃ f, fuel = f + 1 := ⟨fuel - 1, by omega⟩
    simp only [sizeMembers] at hfuel
    have hsz : v.size ≤ f := by omega
    simp only [validMembers, Bool.and_eq_true] at hvms
    have hk : k ∉ acc.map Prod.fst := by
      intro hm
      rw [List.map_append, List.nodup_append] at hnd
      exact hnd.2.2 hm (by simp)
    obtain ⟨r2, hc1, hc2⟩ := skipWs_colon gap (render gap depth v
      ++ (renderMembers gap depth ((k2, v2) :: ms)
      ++ (lineBreak gap depth2 ++ '\x7d' :: rest)))
    rw [readMembers_succ, skipWs_lineBreak, quoteJs_append,
      skipWs_cons_of_not_ws '"' _ (by decide)]
    simp only [if_true]
    rw [readString_quoted]
    simp only [hc1, if_true]
    rw [hc2, hv hvv gap depth _ f hsz (delimited_members gap depth depth2 ((k2, v2) :: ms) rest)]
    simp only [renderMembers, List.cons_append, List.append_assoc]
    rw [skipWs_cons_of_not_ws ',' _ (by decide)]
    simp only [if_true]
    rw [show String.mk k.data = k from rfl]
    rw [putMember_of_not_mem k v acc hk]
    have hnd2 : (((acc ++ [(k, v)]) ++ (k2, v2) :: ms).map Prod.fst).Nodup := by
      simpa [List.append_assoc] using hnd
    rw [ih k2 v2 (acc ++ [(k, v)]) gap depth depth2 rest f
      (hall (k2, v2) (List.mem_cons_self _ _))
      (fun z hz => hall z (List.mem_cons_of_mem _ hz)) hvms.1 hvms.2 hnd2 (by omega)]
    simp [List.append_assoc]


theorem validItems_of_mem (items : List Json) (h : validItems items = true) (x : Json)
    (hx : x ∈ items) : x.valid = true := by
  induction items with
  | nil => simp at hx
  | cons y ys ih =>
    simp only [validItems, Bool.and_eq_true] at h
    rcases List.mem_cons.mp hx with h1 | h1
    · rw [h1]; exact h.1
    · exact ih h.2 h1

theorem validMembers_of_mem (ms : List (String × Json)) (h : validMembers ms = true)
    (m : String × Json) (hm : m ∈ ms) : m.2.valid = true := by
  induction ms with
  | nil => simp at hm
  | cons y ys ih =>
    obtain ⟨k, v⟩ := y
    simp only [validMembers, Bool.and_eq_true] at h
    rcases List.mem_cons.mp hm with h1 | h1
    · rw [h1]; exact h.1
    · exact ih h.2 h1

theorem readsBack_all (v : Json) : ReadsBack v := by
  induction v using Json.induct with
  | hnull =>
    intro _ gap depth rest fuel hfuel _
    obtain ⟨f, rfl⟩ : ∃ f, fuel = f + 1 := ⟨fuel - 1, by simp only [Json.size] at hfuel; omega⟩
    rfl
  | hbool b =>
    intro _ gap depth rest fuel hfuel _
    obtain ⟨f, rfl⟩ : ∃ f, fuel = f + 1 := ⟨fuel - 1, by simp only [Json.size] at hfuel; omega⟩
    cases b <;> rfl
  | hnum text =>
    intro hv gap depth rest fuel hfuel hrest
    obtain ⟨f, rfl⟩ : ∃ f, fuel = f + 1 := ⟨fuel - 1, by simp only [Json.size] at hfuel; omega⟩
    have hn : isNumberText text = true := by simpa [Json.valid] using hv
    obtain ⟨c, cs, h1, h2⟩ := numberText_head text hn
    obtain ⟨w1, w2, w3, _, w5, w6, w7, w8⟩ := numStep_start_head c h2
    have hr := readNumber_text text rest hn hrest
    rw [h1] at hr
    simp only [render, h1, List.cons_append]
    rw [readValue_succ, skipWs_cons_of_not_ws c _ w1]
    simp only [w2, w3, w5, w6, w7, w8, if_false]
    simp only [List.cons_append] at hr
    rw [hr, ← h1]
  | hstr s =>
    intro _ gap depth rest fuel hfuel _
    obtain ⟨f, rfl⟩ : ∃ f, fuel = f + 1 := ⟨fuel - 1, by simp only [Json.size] at hfuel; omega⟩
    simp only [render]
    rw [quoteJs_append, readValue_succ, skipWs_cons_of_not_ws '"' _ (by decide)]
    simp only [if_true]
    rw [readString_quoted]
  | harr items ih =>
    intro hv gap depth rest fuel hfuel _
    obtain ⟨f, rfl⟩ : ∃ f, fuel = f + 1 := ⟨fuel - 1, by simp only [Json.size] at hfuel; omega⟩
    cases items with
    | nil => rfl
    | cons x xs =>
      simp only [Json.valid, validItems, Bool.and_eq_true] at hv
      simp only [Json.size, sizeItems] at hfuel
      obtain ⟨c, cs, hc1, hc2, hc3⟩ := render_head gap (depth + 1) x hv.1
      have e1 : ¬ ('[' = '"') := by decide
      simp only [render, List.cons_append, List.append_assoc, List.nil_append]
      rw [readValue_succ, skipWs_cons_of_not_ws '[' _ (by decide)]
      simp only [e1, if_false, if_true]
      rw [skipWs_lineBreak, hc1, List.cons_append, skipWs_cons_of_not_ws c _ hc2]
      simp only [hc3, if_false]
      rw [← List.cons_append, ← hc1,
        readItems_rendered xs x gap (depth + 1) depth rest f
          (ih x (List.mem_cons_self _ _)) (fun y hy => ih y (List.mem_cons_of_mem _ hy))
          hv.1 hv.2 (by omega)]
  | hobj members ih =>
    intro hv gap depth rest fuel hfuel _
    obtain ⟨f, rfl⟩ : ∃ f, fuel = f + 1 := ⟨fuel - 1, by simp only [Json.size] at hfuel; omega⟩
    cases members with
    | nil => rfl
    | cons m ms =>
      obtain ⟨k, v⟩ := m
      simp only [Json.valid, validMembers, Bool.and_eq_true, decide_eq_true_eq] at hv
      simp only [Json.size, sizeMembers] at hfuel
      have e1 : ¬ ('\x7b' = '"') := by decide
      have e2 : ¬ ('\x7b' = '[') := by decide
      have e3 : ¬ ('"' = '\x7d') := by decide
      simp only [render, List.cons_append, List.append_assoc, List.nil_append]
      rw [readValue_succ, skipWs_cons_of_not_ws '\x7b' _ (by decide)]
      simp only [e1, e2, if_false, if_true]
      rw [skipWs_lineBreak, quoteJs_append, skipWs_cons_of_not_ws '"' _ (by decide)]
      simp only [e3, if_false]
      rw [← quoteJs_append,
        readMembers_rendered ms k v [] gap (depth + 1) depth rest f
          (ih (k, v) (List.mem_cons_self _ _)) (fun y hy => ih y (List.mem_cons_of_mem _ hy))
          hv.1.1 hv.1.2 (by simpa using hv.2) (by omega)]
      simp


theorem sizeItems_le (gap depth : Nat) (xs : List Json)
    (h : ∀ x ∈ xs, ∀ d, x.size ≤ (render gap d x).length) :
    sizeItems xs ≤ (renderItems gap depth xs).length := by
  induction xs with
  | nil => simp [sizeItems]
  | cons x xs ih =>
    have h1 := h x (List.mem_cons_self _ _) depth
    have h2 := ih (fun y hy => h y (List.mem_cons_of_mem _ hy))
    simp only [sizeItems, renderItems, List.length_cons, List.length_append]
    omega

theorem sizeMembers_le (gap depth : Nat) (ms : List (String × Json))
    (h : ∀ m ∈ ms, ∀ d, m.2.size ≤ (render gap d m.2).length) :
    sizeMembers ms ≤ (renderMembers gap depth ms).length := by
  induction ms with
  | nil => simp [sizeMembers]
  | cons m ms ih =>
    obtain ⟨k, v⟩ := m
    have h1 := h (k, v) (List.mem_cons_self _ _) depth
    have h2 := ih (fun y hy => h y (List.mem_cons_of_mem _ hy))
    simp only [sizeMembers, renderMembers, List.length_cons, List.length_append]
    simp only at h1
    omega

theorem size_le_length (gap : Nat) (v : Json) :
    v.valid = true → ∀ depth, v.size ≤ (render gap depth v).length := by
  induction v using Json.induct with
  | hnull => intro _ _; simp [Json.size, render]
  | hbool b => intro _ _; cases b <;> simp [Json.size, render]
  | hnum text =>
    intro hv _
    have hn : isNumberText text = true := by simpa [Json.valid] using hv
    obtain ⟨c, cs, h1, _⟩ := numberText_head text hn
    simp [Json.size, render, h1]
  | hstr s => intro _ _; simp [Json.size, render, quoteJs]
  | harr items ih =>
    intro hv depth
    cases items with
    | nil => simp [Json.size, render, sizeItems]
    | cons x xs =>
      simp only [Json.valid, validItems, Bool.and_eq_true] at hv
      have h1 := ih x (List.mem_cons_self _ _) hv.1 (depth + 1)
      have h2 := sizeItems_le gap (depth + 1) xs
        (fun y hy d => ih y (List.mem_cons_of_mem _ hy) (validItems_of_mem xs hv.2 y hy) d)
      simp only [Json.size, sizeItems, render, List.length_cons, List.length_append,
        List.length_nil]
      omega
  | hobj members ih =>
    intro hv depth
    cases members with
    | nil => simp [Json.size, render, sizeMembers]
    | cons m ms =>
      obtain ⟨k, v⟩ := m
      simp only [Json.valid, validMembers, Bool.and_eq_true, decide_eq_true_eq] at hv
      have h1 := ih (k, v) (List.mem_cons_self _ _) hv.1.1 (depth + 1)
      have h2 := sizeMembers_le gap (depth + 1) ms
        (fun y hy d => ih y (List.mem_cons_of_mem _ hy) (validMembers_of_mem ms hv.1.2 y hy) d)
      simp only [Json.size, sizeMembers, render, List.length_cons, List.length_append,
        List.length_nil]
      simp only at h1
      omega

theorem parse_stringify (p : Json) (indent : Nat) (hv : p.valid = true) :
    parseJs (stringifyJs p indent) = .ok p := by
  have h := readsBack_all p hv (min indent 10) 0 []
    ((render (min indent 10) 0 p).length + 1)
    (Nat.le_succ_of_le (size_le_length (min indent 10) p hv 0)) trivial
  rw [List.append_nil] at h
  simp only [parseJs, stringifyJs, h, skipWs]


/-! ## The chat page -/

theorem jsTrim_split (s : String) :
    ∃ pre post, s.data = pre ++ (jsTrim s).data ++ post ∧
      (∀ c ∈ pre, isJsSpace c = true) ∧ (∀ c ∈ post, isJsSpace c = true) := by
  refine ⟨s.data.takeWhile isJsSpace,
    ((s.data.dropWhile isJsSpace).reverse.takeWhile isJsSpace).reverse, ?_, ?_, ?_⟩
  · have h1 := (List.takeWhile_append_dropWhile isJsSpace s.data).symm
    have h2 := congrArg List.reverse
      (List.takeWhile_append_dropWhile isJsSpace (s.data.dropWhile isJsSpace).reverse)
    rw [List.reverse_append, List.reverse_reverse] at h2
    simp only [jsTrim]
    rw [List.append_assoc, h2]
    exact h1
  · intro c hc
    exact List.mem_takeWhile_imp hc
  · intro c hc
    exact List.mem_takeWhile_imp (List.mem_reverse.mp hc)

theorem jsTrim_head (s : String) (c : Char) (h : (jsTrim s).data.head? = some c) :
    isJsSpace c = false := by
  simp only [jsTrim] at h
  have h0 := List.head?_dropWhile_not isJsSpace s.data
  have h1 := (List.takeWhile_append_dropWhile isJsSpace
    (s.data.dropWhile isJsSpace).reverse).symm
  rw [List.head?_reverse] at h
  have hne : (s.data.dropWhile isJsSpace).reverse.dropWhile isJsSpace ≠ [] := by
    intro e
    rw [e] at h
    simp at h
  have h2 : (s.data.dropWhile isJsSpace).reverse.getLast? = some c := by
    rw [h1, List.getLast?_append_of_ne_nil _ hne, h]
  rw [List.getLast?_reverse] at h2
  rw [h2] at h0
  exact h0

theorem jsTrim_last (s : String) (c : Char) (h : (jsTrim s).data.getLast? = some c) :
    isJsSpace c = false := by
  simp only [jsTrim] at h
  rw [List.getLast?_reverse] at h
  have h0 := List.head?_dropWhile_not isJsSpace (s.data.dropWhile isJsSpace).reverse
  rw [h] at h0
  exact h0

/-- C9: `sendMessage` reads the input with the white space at both ends
removed.  When nothing is left it changes nothing (no bubble, no timer, input
kept).  Otherwise it appends exactly one bubble after the bubbles already
there, of class `message user-message`, whose markup shows the role `You` and
the trimmed text as content; it clears the input, and registers exactly one
timer of delay 500 after the pending ones.  That timer, fired on any later
page, appends exactly one bubble of class `message assistant-message` whose
markup shows the role `Assistant` and the content
`This is a simulated response to: "<trimmed text>"`, and touches neither the
input nor the timers. -/
theorem sendMessage_spec (page : Page) :
    (∃ pre post, page.inputValue.data = pre ++ (jsTrim page.inputValue).data ++ post ∧
      (∀ c ∈ pre, isJsSpace c = true) ∧ (∀ c ∈ post, isJsSpace c = true)) ∧
    (∀ c, (jsTrim page.inputValue).data.head? = some c → isJsSpace c = false) ∧
    (∀ c, (jsTrim page.inputValue).data.getLast? = some c → isJsSpace c = false) ∧
    (jsTrim page.inputValue = "" → sendMessage page = page) ∧
    (jsTrim page.inputValue ≠ "" →
      (sendMessage page).bubbles = page.bubbles ++
        [⟨"message user-message", "message-container",
          "\n                <div class=\"message-role\">You</div>"
            ++ "\n                <div class=\"message-content\">"
            ++ jsTrim page.inputValue ++ "</div>\n            "⟩] ∧
      (sendMessage page).inputValue = "" ∧
      (sendMessage page).timers = page.timers ++ [⟨500, jsTrim page.inputValue⟩] ∧
      ∀ later : Page,
        ((Timer.mk 500 (jsTrim page.inputValue)).fire later).bubbles = later.bubbles ++
          [⟨"message assistant-message", "message-container",
            "\n                <div class=\"message-role\">Assistant</div>"
              ++ "\n                <div class=\"message-content\">"
              ++ ("This is a simulated response to: \"" ++ jsTrim page.inputValue ++ "\"")
              ++ "</div>\n            "⟩] ∧
        ((Timer.mk 500 (jsTrim page.inputValue)).fire later).inputValue = later.inputValue ∧
        ((Timer.mk 500 (jsTrim page.inputValue)).fire later).timers = later.timers) := by
  refine ⟨jsTrim_split _, jsTrim_head _, jsTrim_last _, ?_, ?_⟩
  · intro h
    simp [sendMessage, h]
  · intro h
    refine ⟨?_, ?_, ?_, ?_⟩
    · simp [sendMessage, h, addMessage, bubbleMarkup, String.append_assoc]
    · simp [sendMessage, h]
    · simp [sendMessage, h, addMessage]
    · intro later
      simp [Timer.fire, addMessage, aiResponse, bubbleMarkup, String.append_assoc]

/-- C9 at the spec's scenario, "hello" typed with blanks, a tab and a line
break around it, and at an input of white space only. -/
theorem sendMessage_spec_witness :
    (sendMessage ⟨" \thello\n", "48px", [], false, []⟩).bubbles =
        [⟨"message user-message", "message-container",
          "\n                <div class=\"message-role\">You</div>"
            ++ "\n                <div class=\"message-content\">hello</div>\n            "⟩] ∧
      (sendMessage ⟨" \thello\n", "48px", [], false, []⟩).inputValue = "" ∧
      (sendMessage ⟨" \thello\n", "48px", [], false, []⟩).timers = [⟨500, "hello"⟩] ∧
      ((Timer.mk 500 "hello").fire
          (sendMessage ⟨" \thello\n", "48px", [], false, []⟩)).bubbles =
        [⟨"message user-message", "message-container",
          "\n                <div class=\"message-role\">You</div>"
            ++ "\n                <div class=\"message-content\">hello</div>\n            "⟩,
         ⟨"message assistant-message", "message-container",
          "\n                <div class=\"message-role\">Assistant</div>"
            ++ "\n                <div class=\"message-content\">"
            ++ "This is a simulated response to: \"hello\"</div>\n            "⟩] ∧
      sendMessage ⟨" \n ", "48px", [], false, []⟩ = ⟨" \n ", "48px", [], false, []⟩ := by
  have h1 := (sendMessage_spec ⟨" \thello\n", "48px", [], false, []⟩).2.2.2.2 (by decide)
  have h2 := (sendMessage_spec ⟨" \n ", "48px", [], false, []⟩).2.2.2.1 (by decide)
  exact ⟨by decide, h1.2.1, by decide, by decide, h2⟩

/-- C10: the keydown listener prevents the default action and runs
`sendMessage` exactly when the key is Enter and Shift is not held; for Enter
with Shift held, and for every other key, it neither prevents the default
action (so the browser inserts the newline) nor changes the page. -/
theorem onKeydown_spec (e : KeyEvent) (page : Page) :
    ((e.key = "Enter" ∧ e.shiftKey = false) →
      onKeydown e page = ⟨true, sendMessage page⟩) ∧
    (¬ (e.key = "Enter" ∧ e.shiftKey = false) → onKeydown e page = ⟨false, page⟩) ∧
    ((onKeydown e page).defaultPrevented = true ↔ (e.key = "Enter" ∧ e.shiftKey = false)) := by
  by_cases h : e.key = "Enter" ∧ e.shiftKey = false
  · simp [onKeydown, h]
  · have h2 : ¬ (e.key = "Enter" ∧ ¬ e.shiftKey = true) := by simpa using h
    simp [onKeydown, h, h2]

/-- C10 at Enter, Shift+Enter and another key, on a page with "hi" typed. -/
theorem onKeydown_spec_witness :
    onKeydown ⟨"Enter", false⟩ ⟨"hi", "24px", [], false, []⟩
      = ⟨true, sendMessage ⟨"hi", "24px", [], false, []⟩⟩ ∧
    onKeydown ⟨"Enter", true⟩ ⟨"hi", "24px", [], false, []⟩
      = ⟨false, ⟨"hi", "24px", [], false, []⟩⟩ ∧
    onKeydown ⟨"a", false⟩ ⟨"hi", "24px", [], false, []⟩
      = ⟨false, ⟨"hi", "24px", [], false, []⟩⟩ :=
  ⟨(onKeydown_spec _ _).1 (by decide), (onKeydown_spec _ _).2.1 (by decide),
    (onKeydown_spec _ _).2.1 (by decide)⟩

/-! ## String conversion of an id -/

theorem toStringJs_arr (items : List Json) : toStringJs (.arr items) = joinJs items := by
  conv => lhs; unfold toStringJs

theorem toStringJs_obj (members : List (String × Json)) :
    toStringJs (.obj members) =
      if members.any (fun m => m.1 = "toString") then .error .typeError
      else .ok "[object Object]" := by
  conv => lhs; unfold toStringJs

theorem joinJs_nil : joinJs [] = .ok "" := by
  conv => lhs; unfold joinJs

theorem joinJs_cons (x : Json) (xs : List Json) :
    joinJs (x :: xs) =
      match (if x.isNull then .ok "" else toStringJs x) with
      | .error e => .error e
      | .ok a =>
        match xs with
        | [] => .ok a
        | _ :: _ =>
          match joinJs xs with
          | .error e => .error e
          | .ok b => .ok (a ++ "," ++ b) := by
  conv => lhs; unfold joinJs

theorem intercalate_go_append (sep : String) (rest : List String) (x acc : String) :
    String.intercalate.go (x ++ acc) sep rest = x ++ String.intercalate.go acc sep rest := by
  induction rest generalizing acc with
  | nil => rfl
  | cons a rest ih =>
    simp only [String.intercalate.go]
    rw [String.append_assoc, String.append_assoc, ← String.append_assoc acc, ih]

theorem intercalate_cons_cons (sep a b : String) (rest : List String) :
    sep.intercalate (a :: b :: rest) = a ++ sep ++ sep.intercalate (b :: rest) := by
  simp only [String.intercalate, String.intercalate.go]
  rw [intercalate_go_append]

theorem isNull_iff (x : Json) : x.isNull = true ↔ x = .null := by
  cases x <;> simp [Json.isNull]

theorem joinJs_intercalate (items : List Json) (texts : List String)
    (h : List.Forall₂
      (fun x t => (x = Json.null ∧ t = "") ∨ (x ≠ Json.null ∧ toStringJs x = .ok t))
      items texts) :
    joinJs items = .ok (",".intercalate texts) := by
  induction h with
  | nil => rw [joinJs_nil]; rfl
  | @cons x t xs ts hx hrest ih =>
    have hhead : (if x.isNull then (Except.ok "" : Except JsError String) else toStringJs x)
        = .ok t := by
      rcases hx with ⟨h1, h2⟩ | ⟨h1, h2⟩
      · subst h1; subst h2; rfl
      · have : x.isNull = false := by
          cases hn : x.isNull with
          | false => rfl
          | true => exact absurd ((isNull_iff x).mp hn) h1
        simp [this, h2]
    rw [joinJs_cons, hhead]
    cases hrest with
    | nil => rfl
    | @cons y u ys us hy hrest2 =>
      simp only
      rw [ih, intercalate_cons_cons]

theorem joinJs_error (items : List Json) (x : Json) (e : JsError) (hx : x ∈ items)
    (hn : x ≠ .null) (he : toStringJs x = .error e) : ∃ e2, joinJs items = .error e2 := by
  induction items with
  | nil => simp at hx
  | cons y ys ih =>
    rw [joinJs_cons]
    cases hy : (if y.isNull then (Except.ok "" : Except JsError String) else toStringJs y) with
    | error e3 => exact ⟨e3, rfl⟩
    | ok a =>
      rcases List.mem_cons.mp hx with h1 | h1
      · subst h1
        have : x.isNull = false := by
          cases hn2 : x.isNull with
          | false => rfl
          | true => exact absurd ((isNull_iff x).mp hn2) hn
        simp [this, he] at hy
      · obtain ⟨e2, he2⟩ := ih h1
        cases ys with
        | nil => simp at h1
        | cons z zs => exact ⟨e2, by simp only [he2]⟩

theorem lookupMember_after (key : String) (pre post : List (String × Json)) (v : Json)
    (h : ∀ m ∈ pre, m.1 ≠ key) : lookupMember key (pre ++ (key, v) :: post) = some v := by
  induction pre with
  | nil => simp [lookupMember]
  | cons m pre ih =>
    obtain ⟨k, w⟩ := m
    have h1 : ¬ k = key := h (k, w) (List.mem_cons_self _ _)
    simp only [List.cons_append, lookupMember, h1, if_false]
    exact ih (fun m hm => h m (List.mem_cons_of_mem _ hm))

theorem lookupMember_absent (key : String) (members : List (String × Json))
    (h : ∀ m ∈ members, m.1 ≠ key) : lookupMember key members = none := by
  induction members with
  | nil => rfl
  | cons m ms ih =>
    obtain ⟨k, w⟩ := m
    have h1 : ¬ k = key := h (k, w) (List.mem_cons_self _ _)
    simp only [lookupMember, h1, if_false]
    exact ih (fun m hm => h m (List.mem_cons_of_mem _ hm))


/-! ## The handlers over any file system -/

theorem list_response {σ : Type} (fs : FsApi σ) (json : JsonApi) (dirname : Path) (s : σ) :
    (listConversations fs json dirname s).response =
      match readAll fs json dirname (ensureConversationsDir fs dirname s).1 with
      | .ok conversations => ⟨200, .arr conversations⟩
      | .error _ => listFailure := by
  simp only [listConversations]
  cases ensureConversationsDir fs dirname s with
  | mk s1 logged =>
    simp only
    cases readAll fs json dirname s1 <;> rfl

theorem list_state {σ : Type} (fs : FsApi σ) (json : JsonApi) (dirname : Path) (s : σ) :
    (listConversations fs json dirname s).state = (ensureConversationsDir fs dirname s).1 := by
  simp only [listConversations]
  cases ensureConversationsDir fs dirname s with
  | mk s1 logged =>
    simp only
    cases readAll fs json dirname s1 <;> rfl

theorem ensure_state {σ : Type} (fs : FsApi σ) (dirname : Path) (s : σ) :
    (ensureConversationsDir fs dirname s).1 = (fs.mkdir (CONVERSATIONS_DIR dirname) s).2 := by
  simp only [ensureConversationsDir]
  cases fs.mkdir (CONVERSATIONS_DIR dirname) s with
  | mk r s1 => cases r <;> rfl

theorem save_response_of_path_error {σ : Type} (fs : FsApi σ) (json : JsonApi)
    (dirname : Path) (body : Json) (s : σ) (e : JsError)
    (h : savePath dirname body = .error e) :
    (saveConversation fs json dirname body s).response = saveFailure := by
  simp only [saveConversation, h]

theorem save_outcome_of_path {σ : Type} (fs : FsApi σ) (json : JsonApi)
    (dirname : Path) (body : Json) (s : σ) (file : Path)
    (h : savePath dirname body = .ok file) :
    ((saveConversation fs json dirname body s).response,
        (saveConversation fs json dirname body s).state) =
      match fs.writeFile file (json.stringify body 2) (ensureConversationsDir fs dirname s).1 with
      | (.ok _, s2) => (saveSuccess, s2)
      | (.error _, s2) => (saveFailure, s2) := by
  simp only [saveConversation, h]
  cases ensureConversationsDir fs dirname s with
  | mk s1 logged =>
    simp only
    cases fs.writeFile file (json.stringify body 2) s1 with
    | mk r s2 => cases r <;> rfl

theorem readAll_of_error {σ : Type} (fs : FsApi σ) (json : JsonApi) (dirname : Path) (s1 : σ)
    (files : List String) (file : String) (e : JsError)
    (hdir : fs.readdir (CONVERSATIONS_DIR dirname) s1 = .ok files) (hmem : file ∈ files)
    (hbad : readConversation fs json dirname s1 file = .error e) :
    ∃ e2, readAll fs json dirname s1 = .error e2 := by
  simp only [readAll, hdir]
  apply promiseAll_error_of_mem _ e
  exact List.mem_map.mpr ⟨file, hmem, hbad⟩

/-- C4: whenever the directory read yields an entry whose text is read but does
not parse as JSON, `GET /list-conversations` answers status 500 with the body
`{error: "Failed to list conversations"}`: the answer is the error object, not
an array of the other conversations. -/
theorem list_fails_on_unparseable {σ : Type} (fs : FsApi σ) (json : JsonApi)
    (dirname : Path) (s : σ) (files : List String) (file content : String) (e : JsError)
    (hdir : fs.readdir (CONVERSATIONS_DIR dirname) (ensureConversationsDir fs dirname s).1
      = .ok files)
    (hmem : file ∈ files)
    (hread : fs.readFile (pathJoin (CONVERSATIONS_DIR dirname) file)
      (ensureConversationsDir fs dirname s).1 = .ok content)
    (hbad : json.parse content = .error e) :
    (listConversations fs json dirname s).response =
      ⟨500, .obj [("error", .str "Failed to list conversations")]⟩ := by
  have hrc : readConversation fs json dirname (ensureConversationsDir fs dirname s).1 file
      = .error e := by
    simp [readConversation, hread, hbad]
  obtain ⟨e2, he2⟩ := readAll_of_error fs json dirname _ files file e hdir hmem hrc
  rw [list_response, he2]
  rfl

/-- C4 on a tree whose `conversations` holds two good files and then one that
is not JSON. -/
theorem list_fails_on_unparseable_witness :
    (listConversations treeFs jsJSON demoDirname
        (storedRoot [("c.json", .file "not json")])).response =
      ⟨500, .obj [("error", .str "Failed to list conversations")]⟩ :=
  list_fails_on_unparseable treeFs jsJSON demoDirname (storedRoot [("c.json", .file "not json")])
    ["b.txt", "a.json", "c.json"] "c.json" "not json" .syntaxError rfl (by decide) rfl rfl

/-- C6: when every entry the directory read yields is read and parses, `GET
/list-conversations` answers 200 with an array that has one element per entry,
in the order of the directory read: the i-th element is the parsed text of the
i-th entry, whatever the entry is called. -/
theorem list_in_directory_order {σ : Type} (fs : FsApi σ) (json : JsonApi)
    (dirname : Path) (s : σ) (files : List String)
    (hdir : fs.readdir (CONVERSATIONS_DIR dirname) (ensureConversationsDir fs dirname s).1
      = .ok files)
    (hall : ∀ file ∈ files, ∃ content v,
      fs.readFile (pathJoin (CONVERSATIONS_DIR dirname) file)
        (ensureConversationsDir fs dirname s).1 = .ok content ∧ json.parse content = .ok v) :
    ∃ vs, (listConversations fs json dirname s).response = ⟨200, .arr vs⟩ ∧
      vs.length = files.length ∧
      List.Forall₂ (fun file v => ∃ content,
        fs.readFile (pathJoin (CONVERSATIONS_DIR dirname) file)
          (ensureConversationsDir fs dirname s).1 = .ok content ∧ json.parse content = .ok v)
        files vs := by
  obtain ⟨vs, hvs⟩ := forall2_of_forall_exists
    (fun file v => ∃ content,
        fs.readFile (pathJoin (CONVERSATIONS_DIR dirname) file)
          (ensureConversationsDir fs dirname s).1 = .ok content ∧ json.parse content = .ok v)
    files (fun file hf => by
      obtain ⟨content, v, h1, h2⟩ := hall file hf
      exact ⟨v, content, h1, h2⟩)
  refine ⟨vs, ?_, hvs.length_eq.symm, hvs⟩
  have hrc : List.Forall₂ (fun file v =>
      readConversation fs json dirname (ensureConversationsDir fs dirname s).1 file = .ok v)
      files vs := by
    refine hvs.imp ?_
    rintro file v ⟨content, h1, h2⟩
    simp [readConversation, h1, h2]
  rw [list_response]
  simp only [readAll, hdir, promiseAll_forall2 _ _ _ hrc]

/-- C6 on a tree whose `conversations` lists `b.txt` before `a.json`: both are
read, in that order. -/
theorem list_in_directory_order_witness :
    ∃ vs, (listConversations treeFs jsJSON demoDirname (storedRoot [])).response
        = ⟨200, .arr vs⟩ ∧
      vs.length = ["b.txt", "a.json"].length ∧
      List.Forall₂ (fun file v => ∃ content,
        treeFs.readFile (pathJoin (CONVERSATIONS_DIR demoDirname) file)
          (ensureConversationsDir treeFs demoDirname (storedRoot [])).1 = .ok content ∧
          jsJSON.parse content = .ok v)
        ["b.txt", "a.json"] vs :=
  list_in_directory_order treeFs jsJSON demoDirname (storedRoot []) ["b.txt", "a.json"] rfl
    (by
      intro file hf
      simp only [List.mem_cons, List.mem_singleton, List.not_mem_nil, or_false] at hf
      rcases hf with h | h
      · subst h
        exact ⟨"[1, 2]", .arr [.num "1", .num "2"], rfl, rfl⟩
      · subst h
        exact ⟨"\x7b\"id\": \"a\"\x7d", .obj [("id", .str "a")], rfl, rfl⟩)

theorem save_success_text (json : JsonApi) (dirname : Path) (body : Json)
    (root : Node) (file : Path) (hp : savePath dirname body = .ok file)
    (hok : (saveConversation treeFs json dirname body root).response.status = 200) :
    (saveConversation treeFs json dirname body root).state.fileAt file
      = some (json.stringify body 2) := by
  have h := save_outcome_of_path treeFs json dirname body root file hp
  rw [treeFs_writeFile] at h
  cases hw : writeAt (some (ensureConversationsDir treeFs dirname root).1) file
      (json.stringify body 2) with
  | error e =>
    rw [hw] at h
    have h1 := congrArg Prod.fst h
    simp only at h1
    rw [h1] at hok
    simp [saveFailure] at hok
  | ok r =>
    rw [hw] at h
    have h2 := congrArg Prod.snd h
    simp only at h2
    rw [h2]
    exact writeAt_fileAt_same _ _ _ r hw

/-- C5, as amended: in both handlers a failure of the directory read, of a file
read, of the parse of a file, of the construction of the file name or of the
write gives status 500 with the handler's fixed body, whatever the error was.
The result of `mkdir` in `ensureConversationsDir` decides nothing: the handler
goes on from the state `mkdir` left, and the list answer is a function of the
later reads alone. -/
theorem later_failures_answer_500 {σ : Type} (fs : FsApi σ) (json : JsonApi)
    (dirname : Path) (body : Json) (s : σ) :
    (ensureConversationsDir fs dirname s).1 = (fs.mkdir (CONVERSATIONS_DIR dirname) s).2 ∧
    (∀ e, fs.readdir (CONVERSATIONS_DIR dirname) (ensureConversationsDir fs dirname s).1
        = .error e →
      (listConversations fs json dirname s).response =
        ⟨500, .obj [("error", .str "Failed to list conversations")]⟩) ∧
    (∀ files file e,
      fs.readdir (CONVERSATIONS_DIR dirname) (ensureConversationsDir fs dirname s).1
        = .ok files →
      file ∈ files →
      fs.readFile (pathJoin (CONVERSATIONS_DIR dirname) file)
        (ensureConversationsDir fs dirname s).1 = .error e →
      (listConversations fs json dirname s).response =
        ⟨500, .obj [("error", .str "Failed to list conversations")]⟩) ∧
    (∀ files file content e,
      fs.readdir (CONVERSATIONS_DIR dirname) (ensureConversationsDir fs dirname s).1
        = .ok files →
      file ∈ files →
      fs.readFile (pathJoin (CONVERSATIONS_DIR dirname) file)
        (ensureConversationsDir fs dirname s).1 = .ok content →
      json.parse content = .error e →
      (listConversations fs json dirname s).response =
        ⟨500, .obj [("error", .str "Failed to list conversations")]⟩) ∧
    (∀ e, savePath dirname body = .error e →
      (saveConversation fs json dirname body s).response =
        ⟨500, .obj [("error", .str "Failed to save conversation")]⟩) ∧
    (∀ file e s2, savePath dirname body = .ok file →
      fs.writeFile file (json.stringify body 2) (ensureConversationsDir fs dirname s).1
        = (.error e, s2) →
      (saveConversation fs json dirname body s).response =
        ⟨500, .obj [("error", .str "Failed to save conversation")]⟩) ∧
    ((listConversations fs json dirname s).response =
      match readAll fs json dirname (fs.mkdir (CONVERSATIONS_DIR dirname) s).2 with
      | .ok conversations => ⟨200, .arr conversations⟩
      | .error _ => ⟨500, .obj [("error", .str "Failed to list conversations")]⟩) := by
  refine ⟨ensure_state fs dirname s, ?_, ?_, ?_, ?_, ?_, ?_⟩
  · intro e h
    rw [list_response]
    simp only [readAll, h]
    rfl
  · intro files file e hdir hmem hread
    have hrc : readConversation fs json dirname (ensureConversationsDir fs dirname s).1 file
        = .error (.fsError e) := by
      simp [readConversation, hread]
    obtain ⟨e2, he2⟩ := readAll_of_error fs json dirname _ files file _ hdir hmem hrc
    rw [list_response, he2]
    rfl
  · intro files file content e hdir hmem hread hbad
    have hrc : readConversation fs json dirname (ensureConversationsDir fs dirname s).1 file
        = .error e := by
      simp [readConversation, hread, hbad]
    obtain ⟨e2, he2⟩ := readAll_of_error fs json dirname _ files file _ hdir hmem hrc
    rw [list_response, he2]
    rfl
  · intro e h
    exact save_response_of_path_error fs json dirname body s e h
  · intro file e s2 hp hw
    have h := save_outcome_of_path fs json dirname body s file hp
    rw [hw] at h
    exact congrArg Prod.fst h
  · rw [list_response, ensure_state]
    rfl

/-- C5, where the claim fails: on a file system whose `mkdir` fails while the
directory can be read and written, `ensureConversationsDir` logs the error and
both handlers answer 200. -/
theorem mkdir_failure_is_swallowed :
    (faultyMkdirFs.mkdir (CONVERSATIONS_DIR demoDirname) emptyRoot).1 = .error .ETIMEDOUT ∧
    (listConversations faultyMkdirFs jsJSON demoDirname emptyRoot).response
      = ⟨200, .arr []⟩ ∧
    (listConversations faultyMkdirFs jsJSON demoDirname emptyRoot).console
      = [⟨"Error creating conversations directory:", .fsError .ETIMEDOUT⟩] ∧
    (saveConversation faultyMkdirFs jsJSON demoDirname demoConversation emptyRoot).response
      = ⟨200, .obj [("success", .bool true)]⟩ :=
  ⟨rfl, rfl, rfl, rfl⟩

/-- C7: the save handler takes the file name from the body's `id` as it is.
The file is `path.join(CONVERSATIONS_DIR, name + ".json")` with `name` the
string conversion of the id, and that conversion is the one of a template
literal: a string is itself, with no character escaped or rejected, a number
is its text, `true`, `false` and `null` are their names, an object is
`[object Object]` (or a `TypeError` when a member shadows `toString`), an
array is its elements joined by commas, `null` elements empty.  A body
without `id` (an object without that member, or an array) goes to
`undefined.json` and an empty id to `.json`, both directly in the directory.
A conversion that throws gives 500 and no write; whatever the file, a
successful write gives 200 with `{success: true}`, and the state left is the
one the write left. -/
theorem save_does_not_validate_id {σ : Type} (fs : FsApi σ) (json : JsonApi)
    (dirname : Path) (body : Json) (s : σ) :
    (∀ id, toStringJs (.str id) = .ok id) ∧
    (∀ text, toStringJs (.num text) = .ok text) ∧
    toStringJs (.bool true) = .ok "true" ∧
    toStringJs (.bool false) = .ok "false" ∧
    toStringJs .null = .ok "null" ∧
    (∀ members, (∀ m ∈ members, m.1 ≠ "toString") →
      toStringJs (.obj members) = .ok "[object Object]") ∧
    (∀ members, (∃ m ∈ members, m.1 = "toString") →
      toStringJs (.obj members) = .error .typeError) ∧
    (∀ items texts,
      List.Forall₂
        (fun x t => (x = Json.null ∧ t = "") ∨ (x ≠ Json.null ∧ toStringJs x = .ok t))
        items texts →
      toStringJs (.arr items) = .ok (",".intercalate texts)) ∧
    (∀ pre post v name, (∀ m ∈ pre, m.1 ≠ "id") → toStringJs v = .ok name →
      savePath dirname (.obj (pre ++ ("id", v) :: post))
        = .ok (pathJoin (CONVERSATIONS_DIR dirname) (name ++ ".json"))) ∧
    (∀ members, (∀ m ∈ members, m.1 ≠ "id") →
      savePath dirname (.obj members) = .ok (CONVERSATIONS_DIR dirname ++ ["undefined.json"])) ∧
    (∀ items,
      savePath dirname (.arr items) = .ok (CONVERSATIONS_DIR dirname ++ ["undefined.json"])) ∧
    (∀ pre post, (∀ m ∈ pre, m.1 ≠ "id") →
      savePath dirname (.obj (pre ++ ("id", .str "") :: post))
        = .ok (CONVERSATIONS_DIR dirname ++ [".json"])) ∧
    (∀ v name, getId body = .ok (some v) → toStringJs v = .ok name →
      savePath dirname body = .ok (pathJoin (CONVERSATIONS_DIR dirname) (name ++ ".json"))) ∧
    (∀ id, getId body = .ok (some (.str id)) →
      savePath dirname body = .ok (pathJoin (CONVERSATIONS_DIR dirname) (id ++ ".json"))) ∧
    (getId body = .ok none →
      savePath dirname body = .ok (CONVERSATIONS_DIR dirname ++ ["undefined.json"])) ∧
    (getId body = .ok (some (.str "")) →
      savePath dirname body = .ok (CONVERSATIONS_DIR dirname ++ [".json"])) ∧
    (∀ v e, getId body = .ok (some v) → toStringJs v = .error e →
      (saveConversation fs json dirname body s).response
          = ⟨500, .obj [("error", .str "Failed to save conversation")]⟩ ∧
        (saveConversation fs json dirname body s).state
          = (ensureConversationsDir fs dirname s).1) ∧
    (∀ file s2, savePath dirname body = .ok file →
      fs.writeFile file (json.stringify body 2) (ensureConversationsDir fs dirname s).1
        = (.ok (), s2) →
      (saveConversation fs json dirname body s).response
          = ⟨200, .obj [("success", .bool true)]⟩ ∧
        (saveConversation fs json dirname body s).state = s2) := by
  have hstr : ∀ id, toStringJs (.str id) = .ok id := fun id => by
    conv => lhs; unfold toStringJs
  have hgen : ∀ (b : Json) v name, getId b = .ok (some v) → toStringJs v = .ok name →
      savePath dirname b = .ok (pathJoin (CONVERSATIONS_DIR dirname) (name ++ ".json")) := by
    intro b v name hv hn
    simp [savePath, hv, fileNameOf, hn, Except.map]
  have hnone : ∀ (b : Json), getId b = .ok none →
      savePath dirname b = .ok (CONVERSATIONS_DIR dirname ++ ["undefined.json"]) := by
    intro b h
    simp only [savePath, h, fileNameOf]
    rfl
  refine ⟨hstr, ?_, ?_, ?_, ?_, ?_, ?_, ?_, ?_, ?_, ?_, ?_, hgen body,
    fun id hid => hgen body _ id hid (hstr id), hnone body, ?_, ?_, ?_⟩
  · intro text
    conv => lhs; unfold toStringJs
  · conv => lhs; unfold toStringJs
    rfl
  · conv => lhs; unfold toStringJs
    rfl
  · conv => lhs; unfold toStringJs
  · intro members h
    rw [toStringJs_obj]
    have : members.any (fun m => decide (m.1 = "toString")) = false := by
      rw [List.any_eq_false]
      intro m hm
      simpa using h m hm
    simp [this]
  · intro members h
    rw [toStringJs_obj]
    have : members.any (fun m => decide (m.1 = "toString")) = true := by
      rw [List.any_eq_true]
      obtain ⟨m, hm, he⟩ := h
      exact ⟨m, hm, by simpa using he⟩
    simp [this]
  · intro items texts h
    rw [toStringJs_arr]
    exact joinJs_intercalate items texts h
  · intro pre post v name hpre hn
    exact hgen _ v name (by simp [getId, lookupMember_after "id" pre post v hpre]) hn
  · intro members h
    exact hnone _ (by simp [getId, lookupMember_absent "id" members h])
  · intro items
    exact hnone _ rfl
  · intro pre post hpre
    have h := hgen (.obj (pre ++ ("id", .str "") :: post)) (.str "") ""
      (by simp [getId, lookupMember_after "id" pre post _ hpre]) (hstr "")
    rw [h]
    rfl
  · intro h
    rw [hgen body _ "" h (hstr "")]
    rfl
  · intro v e hv he
    have hp : savePath dirname body = .error e := by
      simp [savePath, hv, fileNameOf, he, Except.map]
    rw [save_response_of_path_error fs json dirname body s e hp]
    refine ⟨rfl, ?_⟩
    simp only [saveConversation, hp]
  · intro file s2 hp hw
    have h := save_outcome_of_path fs json dirname body s file hp
    rw [hw] at h
    exact ⟨congrArg Prod.fst h, congrArg Prod.snd h⟩

/-- C7 on a tree without `conversations`: the empty object is written to
`undefined.json`, a body with the id `../x` to `__dirname`, and the ids `1e+21`
(a number), `[1, null, "a"]` and `{}` to files named by their string
conversion, all with answer 200. -/
theorem save_does_not_validate_id_witness :
    savePath demoDirname (.obj []) = .ok ["srv", "app", "conversations", "undefined.json"] ∧
    (saveConversation treeFs jsJSON demoDirname (.obj []) freshRoot).response
      = ⟨200, .obj [("success", .bool true)]⟩ ∧
    (saveConversation treeFs jsJSON demoDirname (.obj []) freshRoot).state.fileAt
      ["srv", "app", "conversations", "undefined.json"] = some "\x7b\x7d" ∧
    savePath demoDirname traversalConversation = .ok ["srv", "app", "x.json"] ∧
    savePath demoDirname (.obj [("id", .num "1e+21")])
      = .ok ["srv", "app", "conversations", "1e+21.json"] ∧
    savePath demoDirname (.obj [("id", .arr [.num "1", .null, .str "a"])])
      = .ok ["srv", "app", "conversations", "1,,a.json"] ∧
    savePath demoDirname (.obj [("id", .obj [])])
      = .ok ["srv", "app", "conversations", "[object Object].json"] ∧
    (saveConversation treeFs jsJSON demoDirname (.obj [("id", .num "1e+21")])
      freshRoot).response = ⟨200, .obj [("success", .bool true)]⟩ :=
  have h := save_does_not_validate_id treeFs jsJSON demoDirname (.obj []) freshRoot
  have h2 := save_does_not_validate_id treeFs jsJSON demoDirname traversalConversation freshRoot
  have h3 := save_does_not_validate_id treeFs jsJSON demoDirname
    (.obj [("id", .num "1e+21")]) freshRoot
  ⟨h.2.2.2.2.2.2.2.2.2.1 [] (by simp),
    (h.2.2.2.2.2.2.2.2.2.2.2.2.2.2.2.2.2 _ _ (h.2.2.2.2.2.2.2.2.2.1 [] (by simp)) rfl).1,
    rfl,
    h2.2.2.2.2.2.2.2.2.2.2.2.2.2.1 "../x" rfl,
    h3.2.2.2.2.2.2.2.2.1 [] [] (.num "1e+21") "1e+21" (by simp) (h3.2.1 "1e+21"),
    rfl, rfl,
    (h3.2.2.2.2.2.2.2.2.2.2.2.2.2.2.2.2.2 _ _ rfl rfl).1⟩

/-- C5 on a tree in which the name `conversations` is taken by a regular file:
`mkdir` fails, and so do the directory read and the write, with answer 500. -/
theorem later_failures_answer_500_witness :
    (treeFs.mkdir (CONVERSATIONS_DIR demoDirname) blockedRoot).1 = .error .EEXIST ∧
    (listConversations treeFs jsJSON demoDirname blockedRoot).response
      = ⟨500, .obj [("error", .str "Failed to list conversations")]⟩ ∧
    (saveConversation treeFs jsJSON demoDirname demoConversation blockedRoot).response
      = ⟨500, .obj [("error", .str "Failed to save conversation")]⟩ :=
  have h := later_failures_answer_500 treeFs jsJSON demoDirname demoConversation blockedRoot
  ⟨rfl, h.2.1 .ENOTDIR rfl, h.2.2.2.2.2.1 _ .ENOTDIR blockedRoot rfl rfl⟩

/-! ## The handlers on the directory tree: the claims -/

/-- C3: with `__dirname` an existing directory, when `conversations` is absent
from it (so that it does not resolve) or is an empty directory, `GET
/list-conversations` answers 200 with the empty array and logs nothing, and
afterwards `conversations` exists as an empty directory. -/
theorem list_empty_or_absent (json : JsonApi) (dirname : Path) (root : Node)
    (es0 : List (String × Node))
    (hroot : root.resolve dirname = .ok (.dir es0))
    (hdir : findEntry "conversations" es0 = none ∨
      findEntry "conversations" es0 = some (.dir [])) :
    (findEntry "conversations" es0 = none →
      root.resolve (CONVERSATIONS_DIR dirname) = .error .ENOENT) ∧
    (listConversations treeFs json dirname root).response = ⟨200, .arr []⟩ ∧
    (listConversations treeFs json dirname root).console = [] ∧
    (listConversations treeFs json dirname root).state.resolve (CONVERSATIONS_DIR dirname)
      = .ok (.dir []) := by
  have hconv : convEntries es0 = some [] := by
    rcases hdir with h | h <;> simp [convEntries, h]
  obtain ⟨root1, h1, h2, _⟩ := ensure_tree dirname root es0 [] hroot hconv
  have h3 := ensure_tree_noop dirname root1 [] h2
  have hw : WfDir [] := ⟨by simp, by simp⟩
  have hl := list_tree json dirname root1 [] [] h2 hw List.Forall₂.nil
  rw [list_after_ensure treeFs json dirname root root1 h1 h3, hl]
  refine ⟨?_, rfl, rfl, h2⟩
  intro hn
  rw [conversationsDir_eq, resolve_append, hroot]
  simp [Node.resolve, hn]

/-- C3 on a tree without `conversations`. -/
theorem list_empty_or_absent_witness :
    freshRoot.resolve (CONVERSATIONS_DIR demoDirname) = .error .ENOENT ∧
    (listConversations treeFs jsJSON demoDirname freshRoot).response = ⟨200, .arr []⟩ ∧
    (listConversations treeFs jsJSON demoDirname freshRoot).state.resolve
      (CONVERSATIONS_DIR demoDirname) = .ok (.dir []) :=
  have h := list_empty_or_absent jsJSON demoDirname freshRoot [("server.js", .file "")] rfl
    (Or.inl rfl)
  ⟨h.1 rfl, h.2.1, h.2.2.2⟩

theorem save_then_list_of_round_trip (json : JsonApi) (dirname : Path) (root : Node)
    (es0 es : List (String × Node)) (p : Json) (id : String)
    (hroot : root.resolve dirname = .ok (.dir es0))
    (hconv : convEntries es0 = some es)
    (hwf : WfDir es)
    (hstored : ∀ e ∈ es, ∃ v, StoredAs json e v)
    (hid : getId p = .ok (some (.str id)))
    (hslash : '/' ∉ id.data)
    (hname : nameOk (id ++ ".json") = true)
    (hround : json.parse (json.stringify p 2) = .ok p) :
    (saveConversation treeFs json dirname p root).response
      = ⟨200, .obj [("success", .bool true)]⟩ ∧
    ∃ vs, (listConversations treeFs json dirname
        (saveConversation treeFs json dirname p root).state).response = ⟨200, .arr vs⟩ ∧
      p ∈ vs := by
  obtain ⟨root1, h1, h2, _⟩ := ensure_tree dirname root es0 es hroot hconv
  have h3 := ensure_tree_noop dirname root1 es h2
  have hd : ∀ es2, findEntry (id ++ ".json") es ≠ some (.dir es2) := by
    intro es2 hf
    have hk : id ++ ".json" ∈ es.map Prod.fst := by
      by_contra hc
      rw [(findEntry_eq_none_iff _ es).mpr hc] at hf
      cases hf
    obtain ⟨e, he, hek⟩ := List.mem_map.mp hk
    obtain ⟨v, content, hc1, _⟩ := hstored e he
    have hfe := findEntry_of_mem e.1 e.2 es hwf.1 he
    rw [hek, hf, hc1] at hfe
    cases hfe
  obtain ⟨root2, hs1, hs2, _, _⟩ :=
    save_tree json dirname root1 es p id h2 hid hslash hd (fun _ => hname)
  rw [save_after_ensure treeFs json dirname p root root1 h1 h3, hs1]
  refine ⟨rfl, ?_⟩
  have hwf2 : WfDir (putEntry (id ++ ".json") (.file (json.stringify p 2)) es) :=
    wfDir_putEntry _ _ es (plainName_json id hslash) hwf
  have hst2 : ∀ e ∈ putEntry (id ++ ".json") (.file (json.stringify p 2)) es,
      ∃ v, StoredAs json e v := by
    intro e he
    rcases mem_putEntry _ _ es e he with h | h
    · exact ⟨p, json.stringify p 2, by rw [h], hround⟩
    · exact hstored e h
  obtain ⟨vs, hvs⟩ := forall2_of_forall_exists (StoredAs json) _ hst2
  refine ⟨vs, ?_, ?_⟩
  · simp only [list_tree json dirname root2 _ vs hs2 hwf2 hvs]
  · obtain ⟨v, hv, content, hc1, hc2⟩ := forall2_mem_left (StoredAs json) _ vs hvs _
      (mem_putEntry_self (id ++ ".json") (.file (json.stringify p 2)) es)
    simp only [Node.file.injEq] at hc1
    rw [← hc1, hround] at hc2
    cases hc2
    exact hv

/-- C1, as amended: let `__dirname` be a directory in which `conversations` is
absent or is a directory whose entries have distinct plain names and are all
regular files that parse.  For every payload (a JSON value as `express.json()`
delivers it) whose `id` is a string without `/`, with `id + ".json"` an
acceptable file name, the save answers 200 with `{success: true}` and the list
that follows answers 200 with an array that contains the payload, every field
of it: the file holds `JSON.stringify(p, null, 2)`, and `JSON.parse` reads
that text back as `p`. -/
theorem save_then_list (dirname : Path) (root : Node)
    (es0 es : List (String × Node)) (p : Json) (id : String)
    (hroot : root.resolve dirname = .ok (.dir es0))
    (hconv : convEntries es0 = some es)
    (hwf : WfDir es)
    (hstored : ∀ e ∈ es, ∃ v, StoredAs jsJSON e v)
    (hvalid : p.valid = true)
    (hid : getId p = .ok (some (.str id)))
    (hslash : '/' ∉ id.data)
    (hname : nameOk (id ++ ".json") = true) :
    (saveConversation treeFs jsJSON dirname p root).response
      = ⟨200, .obj [("success", .bool true)]⟩ ∧
    (saveConversation treeFs jsJSON dirname p root).state.fileAt
      (CONVERSATIONS_DIR dirname ++ [id ++ ".json"]) = some (stringifyJs p 2) ∧
    parseJs (stringifyJs p 2) = .ok p ∧
    ∃ vs, (listConversations treeFs jsJSON dirname
        (saveConversation treeFs jsJSON dirname p root).state).response = ⟨200, .arr vs⟩ ∧
      p ∈ vs := by
  have hround : jsJSON.parse (jsJSON.stringify p 2) = .ok p := parse_stringify p 2 hvalid
  have h := save_then_list_of_round_trip jsJSON dirname root es0 es p id hroot hconv hwf
    hstored hid hslash hname hround
  refine ⟨h.1, ?_, hround, h.2⟩
  have hp := savePath_of_plain_id dirname p id hid hslash
  exact save_success_text jsJSON dirname p root _ hp (by rw [h.1])

/-- C1 at the spec's scenario, on a tree without `conversations`. -/
theorem save_then_list_witness :
    (saveConversation treeFs jsJSON demoDirname demoConversation freshRoot).response
      = ⟨200, .obj [("success", .bool true)]⟩ ∧
    ∃ vs, (listConversations treeFs jsJSON demoDirname
        (saveConversation treeFs jsJSON demoDirname demoConversation freshRoot).state).response
        = ⟨200, .arr vs⟩ ∧
      demoConversation ∈ vs :=
  have h := save_then_list demoDirname freshRoot [("server.js", .file "")] [] demoConversation
    "abc" rfl rfl ⟨by simp, by simp⟩ (by simp) rfl rfl (by decide) (by decide)
  ⟨h.1, h.2.2.2⟩

/-- C1, where the claim fails: the payload with id `../x` is saved with answer
200 into `__dirname` itself, and the list that follows answers 200 with the
empty array. -/
theorem traversal_id_is_not_listed :
    jsJSON.parse (jsJSON.stringify traversalConversation 2) = .ok traversalConversation ∧
    (saveConversation treeFs jsJSON demoDirname traversalConversation emptyRoot).response
      = ⟨200, .obj [("success", .bool true)]⟩ ∧
    (saveConversation treeFs jsJSON demoDirname traversalConversation emptyRoot).state.fileAt
      ["srv", "app", "x.json"] = some (jsJSON.stringify traversalConversation 2) ∧
    (listConversations treeFs jsJSON demoDirname
      (saveConversation treeFs jsJSON demoDirname traversalConversation emptyRoot).state).response
      = ⟨200, .arr []⟩ :=
  ⟨rfl, rfl, rfl, rfl⟩

theorem readFile_of_fileAt (root : Node) (p : Path) (content : String)
    (h : root.fileAt p = some content) : treeFs.readFile p root = .ok content := by
  simp only [Node.fileAt] at h
  simp only [treeFs]
  cases hr : root.resolve p with
  | error e => simp [hr] at h
  | ok n =>
    cases n with
    | dir es => simp [hr] at h
    | file c =>
      simp only [hr, Option.some.injEq] at h
      simp [h]

theorem readdir_of_resolve (root : Node) (p : Path) (es : List (String × Node))
    (h : root.resolve p = .ok (.dir es)) : treeFs.readdir p root = .ok (es.map Prod.fst) := by
  simp [treeFs, h]

/-- C2, as amended: let `__dirname` be a directory in which `conversations` is
absent or is a directory with distinct entry names, and let the id be a string
without `/` such that `id + ".json"` is an acceptable file name and not the
name of a subdirectory.  Saving two payloads with that id, one after the other,
answers 200 both times; afterwards the directory read yields the name
`id + ".json"` exactly once, and that file holds `JSON.stringify(p2, null, 2)`
and nothing else. -/
theorem save_twice_overwrites (json : JsonApi) (dirname : Path) (root : Node)
    (es0 es : List (String × Node)) (p1 p2 : Json) (id : String)
    (hroot : root.resolve dirname = .ok (.dir es0))
    (hconv : convEntries es0 = some es)
    (hnodup : (es.map Prod.fst).Nodup)
    (hid1 : getId p1 = .ok (some (.str id)))
    (hid2 : getId p2 = .ok (some (.str id)))
    (hslash : '/' ∉ id.data)
    (hname : nameOk (id ++ ".json") = true)
    (hd : ∀ es2, findEntry (id ++ ".json") es ≠ some (.dir es2)) :
    (saveConversation treeFs json dirname p1 root).response
      = ⟨200, .obj [("success", .bool true)]⟩ ∧
    (saveConversation treeFs json dirname p2
      (saveConversation treeFs json dirname p1 root).state).response
      = ⟨200, .obj [("success", .bool true)]⟩ ∧
    (∃ names, treeFs.readdir (CONVERSATIONS_DIR dirname)
        (saveConversation treeFs json dirname p2
          (saveConversation treeFs json dirname p1 root).state).state = .ok names ∧
      names.count (id ++ ".json") = 1) ∧
    treeFs.readFile (CONVERSATIONS_DIR dirname ++ [id ++ ".json"])
      (saveConversation treeFs json dirname p2
        (saveConversation treeFs json dirname p1 root).state).state
      = .ok (json.stringify p2 2) := by
  obtain ⟨root1, h1, h2, _⟩ := ensure_tree dirname root es0 es hroot hconv
  have h3 := ensure_tree_noop dirname root1 es h2
  obtain ⟨rootA, hA1, hA2, _, _⟩ :=
    save_tree json dirname root1 es p1 id h2 hid1 hslash hd (fun _ => hname)
  have hdA : ∀ es2, findEntry (id ++ ".json")
      (putEntry (id ++ ".json") (.file (json.stringify p1 2)) es) ≠ some (.dir es2) := by
    intro es2 hf
    rw [findEntry_putEntry_same] at hf
    cases hf
  obtain ⟨rootB, hB1, hB2, hB3, _⟩ :=
    save_tree json dirname rootA _ p2 id hA2 hid2 hslash hdA (fun _ => hname)
  rw [save_after_ensure treeFs json dirname p1 root root1 h1 h3, hA1]
  simp only [hB1]
  refine ⟨rfl, rfl, ⟨_, readdir_of_resolve rootB _ _ hB2, ?_⟩, readFile_of_fileAt rootB _ _ hB3⟩
  apply List.count_eq_one_of_mem
  · exact nodup_keys_putEntry _ _ _ (nodup_keys_putEntry _ _ _ hnodup)
  · exact List.mem_map.mpr ⟨_, mem_putEntry_self _ _ _, rfl⟩

/-- C2 at the spec's conversation and a later version of it. -/
theorem save_twice_overwrites_witness :
    (∃ names, treeFs.readdir (CONVERSATIONS_DIR demoDirname)
        (saveConversation treeFs jsJSON demoDirname demoConversation2
          (saveConversation treeFs jsJSON demoDirname demoConversation freshRoot).state).state
        = .ok names ∧ names.count ("abc" ++ ".json") = 1) ∧
    treeFs.readFile (CONVERSATIONS_DIR demoDirname ++ ["abc" ++ ".json"])
      (saveConversation treeFs jsJSON demoDirname demoConversation2
        (saveConversation treeFs jsJSON demoDirname demoConversation freshRoot).state).state
      = .ok (jsJSON.stringify demoConversation2 2) :=
  (save_twice_overwrites jsJSON demoDirname freshRoot [("server.js", .file "")] []
    demoConversation demoConversation2 "abc" rfl rfl (by simp) rfl rfl (by decide) (by decide)
    (by simp [findEntry])).2.2

/-- C2, where the claim fails: two payloads with id `../x` are both saved with
answer 200, and the conversations directory holds no file afterwards; the text
of the second payload is in `__dirname`. -/
theorem traversal_id_leaves_no_file :
    (saveConversation treeFs jsJSON demoDirname traversalConversation emptyRoot).response
      = ⟨200, .obj [("success", .bool true)]⟩ ∧
    (saveConversation treeFs jsJSON demoDirname traversalConversation2
      (saveConversation treeFs jsJSON demoDirname traversalConversation emptyRoot).state).response
      = ⟨200, .obj [("success", .bool true)]⟩ ∧
    treeFs.readdir (CONVERSATIONS_DIR demoDirname)
      (saveConversation treeFs jsJSON demoDirname traversalConversation2
        (saveConversation treeFs jsJSON demoDirname traversalConversation emptyRoot).state).state
      = .ok [] ∧
    treeFs.readFile ["srv", "app", "x.json"]
      (saveConversation treeFs jsJSON demoDirname traversalConversation2
        (saveConversation treeFs jsJSON demoDirname traversalConversation emptyRoot).state).state
      = .ok (jsJSON.stringify traversalConversation2 2) :=
  ⟨rfl, rfl, rfl, rfl⟩

/-- C8, as amended: for two payloads whose ids are distinct strings without
`/`, the files the save handler writes are distinct.  With `__dirname` a
directory in which `conversations` is absent or a directory, and both file
names acceptable and not names of subdirectories, saving the first and then the
second answers 200 both times; the second save changes the text of no regular
file other than its own, and the file of the first payload still holds
`JSON.stringify` of the first payload. -/
theorem distinct_plain_ids_do_not_conflict (json : JsonApi) (dirname : Path) (root : Node)
    (es0 es : List (String × Node)) (pA pB : Json) (idA idB : String)
    (hroot : root.resolve dirname = .ok (.dir es0))
    (hconv : convEntries es0 = some es)
    (hidA : getId pA = .ok (some (.str idA)))
    (hidB : getId pB = .ok (some (.str idB)))
    (hne : idA ≠ idB)
    (hslashA : '/' ∉ idA.data)
    (hslashB : '/' ∉ idB.data)
    (hnameA : nameOk (idA ++ ".json") = true)
    (hnameB : nameOk (idB ++ ".json") = true)
    (hdA : ∀ es2, findEntry (idA ++ ".json") es ≠ some (.dir es2))
    (hdB : ∀ es2, findEntry (idB ++ ".json") es ≠ some (.dir es2)) :
    savePath dirname pA = .ok (CONVERSATIONS_DIR dirname ++ [idA ++ ".json"]) ∧
    savePath dirname pB = .ok (CONVERSATIONS_DIR dirname ++ [idB ++ ".json"]) ∧
    CONVERSATIONS_DIR dirname ++ [idA ++ ".json"] ≠ CONVERSATIONS_DIR dirname ++ [idB ++ ".json"] ∧
    (saveConversation treeFs json dirname pA root).response
      = ⟨200, .obj [("success", .bool true)]⟩ ∧
    (saveConversation treeFs json dirname pB
      (saveConversation treeFs json dirname pA root).state).response
      = ⟨200, .obj [("success", .bool true)]⟩ ∧
    (saveConversation treeFs json dirname pA root).state.fileAt
      (CONVERSATIONS_DIR dirname ++ [idA ++ ".json"]) = some (json.stringify pA 2) ∧
    (saveConversation treeFs json dirname pB
      (saveConversation treeFs json dirname pA root).state).state.fileAt
      (CONVERSATIONS_DIR dirname ++ [idA ++ ".json"]) = some (json.stringify pA 2) ∧
    ∀ q, q ≠ CONVERSATIONS_DIR dirname ++ [idB ++ ".json"] →
      (saveConversation treeFs json dirname pB
        (saveConversation treeFs json dirname pA root).state).state.fileAt q =
      (saveConversation treeFs json dirname pA root).state.fileAt q := by
  obtain ⟨root1, h1, h2, _⟩ := ensure_tree dirname root es0 es hroot hconv
  have h3 := ensure_tree_noop dirname root1 es h2
  have hkeys : idA ++ ".json" ≠ idB ++ ".json" := fun e => hne (json_name_injective idA idB e)
  have hpaths : CONVERSATIONS_DIR dirname ++ [idA ++ ".json"]
      ≠ CONVERSATIONS_DIR dirname ++ [idB ++ ".json"] := by
    intro e
    have := List.append_cancel_left e
    simp only [List.cons.injEq, and_true] at this
    exact hkeys this
  obtain ⟨rootA, hA1, hA2, hA3, _⟩ :=
    save_tree json dirname root1 es pA idA h2 hidA hslashA hdA (fun _ => hnameA)
  have hdB2 : ∀ es2, findEntry (idB ++ ".json")
      (putEntry (idA ++ ".json") (.file (json.stringify pA 2)) es) ≠ some (.dir es2) := by
    intro es2
    rw [findEntry_putEntry_other _ _ _ _ hkeys.symm]
    exact hdB es2
  obtain ⟨rootB, hB1, _, _, hB4⟩ :=
    save_tree json dirname rootA _ pB idB hA2 hidB hslashB hdB2 (fun _ => hnameB)
  rw [save_after_ensure treeFs json dirname pA root root1 h1 h3, hA1]
  simp only [hB1]
  refine ⟨savePath_of_plain_id dirname pA idA hidA hslashA,
    savePath_of_plain_id dirname pB idB hidB hslashB, hpaths, rfl, rfl, hA3, ?_, hB4⟩
  rw [hB4 _ hpaths]
  exact hA3

/-- C8 for the ids `a` and `b` on a tree without `conversations`. -/
theorem distinct_plain_ids_do_not_conflict_witness :
    (saveConversation treeFs jsJSON demoDirname conversationA freshRoot).state.fileAt
      (CONVERSATIONS_DIR demoDirname ++ ["a" ++ ".json"])
      = some (jsJSON.stringify conversationA 2) ∧
    (saveConversation treeFs jsJSON demoDirname conversationB
      (saveConversation treeFs jsJSON demoDirname conversationA freshRoot).state).state.fileAt
      (CONVERSATIONS_DIR demoDirname ++ ["a" ++ ".json"])
      = some (jsJSON.stringify conversationA 2) :=
  have h := distinct_plain_ids_do_not_conflict jsJSON demoDirname freshRoot
    [("server.js", .file "")] [] conversationA conversationB "a" "b" rfl rfl rfl rfl
    (by decide) (by decide) (by decide) (by decide) (by decide)
    (by simp [findEntry]) (by simp [findEntry])
  ⟨h.2.2.2.2.2.1, h.2.2.2.2.2.2.1⟩

/-- C8, where the claim fails: the ids `a` and `./a` are distinct, both saves
answer 200 and write the same file, and after the second save the file of the
first payload holds the second payload. -/
theorem distinct_ids_same_file :
    getId conversationA = .ok (some (.str "a")) ∧
    getId conversationDotA = .ok (some (.str "./a")) ∧
    ("a" : String) ≠ "./a" ∧
    savePath demoDirname conversationA = .ok ["srv", "app", "conversations", "a.json"] ∧
    savePath demoDirname conversationDotA = .ok ["srv", "app", "conversations", "a.json"] ∧
    (saveConversation treeFs jsJSON demoDirname conversationA emptyRoot).state.fileAt
      ["srv", "app", "conversations", "a.json"] = some (jsJSON.stringify conversationA 2) ∧
    (saveConversation treeFs jsJSON demoDirname conversationDotA
      (saveConversation treeFs jsJSON demoDirname conversationA emptyRoot).state).state.fileAt
      ["srv", "app", "conversations", "a.json"] = some (jsJSON.stringify conversationDotA 2) ∧
    jsJSON.stringify conversationDotA 2 ≠ jsJSON.stringify conversationA 2 :=
  ⟨rfl, rfl, by decide, rfl, rfl, rfl, rfl, by decide⟩

/-! ## Further properties of the handlers on the directory tree -/

theorem mkdirAt_resolve (p : Path) (slot : Option Node) (r : Node)
    (h : mkdirAt slot p = .ok r) : ∃ es, r.resolve p = .ok (.dir es) := by
  induction p generalizing slot r with
  | nil =>
    cases slot with
    | none =>
      simp only [mkdirAt, Except.ok.injEq] at h
      subst h
      exact ⟨[], rfl⟩
    | some n =>
      cases n with
      | file c => simp [mkdirAt] at h
      | dir es =>
        simp only [mkdirAt, Except.ok.injEq] at h
        subst h
        exact ⟨es, rfl⟩
  | cons s rest ih =>
    cases slot with
    | none =>
      simp only [mkdirAt] at h
      split at h
      · cases hc : mkdirAt none rest with
        | error e => simp [hc, Except.map] at h
        | ok c =>
          simp only [hc, Except.map, Except.ok.injEq] at h
          subst h
          obtain ⟨es, hes⟩ := ih none c hc
          exact ⟨es, by simp [Node.resolve, findEntry, hes]⟩
      · simp at h
    | some n =>
      cases n with
      | file c => simp [mkdirAt] at h
      | dir es0 =>
        simp only [mkdirAt] at h
        split at h
        · simp at h
        · cases hc : mkdirAt (findEntry s es0) rest with
          | error e => simp [hc, Except.map] at h
          | ok c =>
            simp only [hc, Except.map, Except.ok.injEq] at h
            subst h
            obtain ⟨es, hes⟩ := ih (findEntry s es0) c hc
            exact ⟨es, by simp [Node.resolve, findEntry_putEntry_same, hes]⟩

/-- X1: on the directory tree the list handler changes the text of no regular
file, whatever it answers. -/
theorem list_changes_no_file (json : JsonApi) (dirname : Path) (root : Node) (q : Path) :
    (listConversations treeFs json dirname root).state.fileAt q = root.fileAt q := by
  rw [list_state]
  exact ensure_tree_fileAt dirname root q

/-- X2: on the directory tree the save handler changes the text of no regular
file other than the one at the path it writes, for every body and whatever it
answers. -/
theorem save_changes_only_its_file (json : JsonApi) (dirname : Path) (body : Json)
    (root : Node) (file : Path) (hp : savePath dirname body = .ok file) (q : Path)
    (hq : q ≠ file) :
    (saveConversation treeFs json dirname body root).state.fileAt q = root.fileAt q :=
  save_tree_frame json dirname body root file hp q hq

/-- X2 for the spec's conversation: `server.js` is left alone. -/
theorem save_changes_only_its_file_witness :
    (saveConversation treeFs jsJSON demoDirname demoConversation freshRoot).state.fileAt
      ["srv", "app", "server.js"] = freshRoot.fileAt ["srv", "app", "server.js"] :=
  save_changes_only_its_file jsJSON demoDirname demoConversation freshRoot
    ["srv", "app", "conversations", "abc.json"] rfl ["srv", "app", "server.js"] (by decide)

/-- X3: on the directory tree, a save that answers 200 has left exactly the text
`JSON.stringify(body, null, 2)` in the file at the path it writes. -/
theorem save_success_stores_text (json : JsonApi) (dirname : Path) (body : Json)
    (root : Node) (file : Path) (hp : savePath dirname body = .ok file)
    (hok : (saveConversation treeFs json dirname body root).response.status = 200) :
    (saveConversation treeFs json dirname body root).state.fileAt file
      = some (json.stringify body 2) :=
  save_success_text json dirname body root file hp hok

/-- X3 for the spec's conversation, with the text written out. -/
theorem save_success_stores_text_witness :
    (saveConversation treeFs jsJSON demoDirname demoConversation freshRoot).state.fileAt
      ["srv", "app", "conversations", "abc.json"]
      = some ("\x7b\n  \"id\": \"abc\",\n  \"messages\": [\n    \x7b\n      \"role\": \"user\","
        ++ "\n      \"content\": \"hi\"\n    \x7d\n  ]\n\x7d") :=
  save_success_stores_text jsJSON demoDirname demoConversation freshRoot
    ["srv", "app", "conversations", "abc.json"] rfl rfl

/-- X4: on the directory tree, once `ensureConversationsDir` has run without a
log line, running it again changes nothing and logs nothing: directory creation
is idempotent. -/
theorem ensure_idempotent (dirname : Path) (root root1 : Node)
    (h : ensureConversationsDir treeFs dirname root = (root1, [])) :
    ensureConversationsDir treeFs dirname root1 = (root1, []) := by
  simp only [ensureConversationsDir, treeFs_mkdir] at h
  cases hm : mkdirAt (some root) (CONVERSATIONS_DIR dirname) with
  | error e => simp [hm] at h
  | ok r =>
    simp only [hm, Prod.mk.injEq, and_true] at h
    subst h
    obtain ⟨es, hes⟩ := mkdirAt_resolve _ _ r hm
    exact ensure_tree_noop dirname r es hes

/-- X4 on a tree without `conversations`. -/
theorem ensure_idempotent_witness :
    ensureConversationsDir treeFs demoDirname emptyRoot = (emptyRoot, []) :=
  ensure_idempotent demoDirname freshRoot emptyRoot rfl

end AIChat
